import Mathlib

/-!
Verification of the Granite rich-text editor core (src/main.py) against its
natural-language specification.  The Python source is shallowly embedded:
pure functions become Lean functions, Qt documents become lists of blocks,
machine floats become exact rationals, the file system becomes an
association list.  Strings are modelled as `List Char`.
-/

set_option maxRecDepth 8000

namespace Granite

/-! ## Basic character and digit utilities -/

/-- Decimal digit to its ASCII character (used when printing numbers the way
`str`/`json.dumps` do). Arguments `≥ 10` never arise. -/
def digitChar (d : Nat) : Char :=
  match d with
  | 0 => '0' | 1 => '1' | 2 => '2' | 3 => '3' | 4 => '4'
  | 5 => '5' | 6 => '6' | 7 => '7' | 8 => '8' | 9 => '9'
  | _ => '0'

/-- Lowercase hexadecimal digit character (as produced by Python's
`json.dumps` in `\uXXXX` escapes). -/
def hexChar (d : Nat) : Char :=
  match d with
  | 0 => '0' | 1 => '1' | 2 => '2' | 3 => '3' | 4 => '4'
  | 5 => '5' | 6 => '6' | 7 => '7' | 8 => '8' | 9 => '9'
  | 10 => 'a' | 11 => 'b' | 12 => 'c' | 13 => 'd' | 14 => 'e' | 15 => 'f'
  | _ => '0'

/-- Decimal digits of a positive natural, most significant first; `fuel`
bounds the recursion (any `fuel ≥ n` is enough). -/
def natCharsAux : Nat → Nat → List Char
  | 0, _ => []
  | fuel + 1, n =>
    if n = 0 then []
    else natCharsAux fuel (n / 10) ++ [digitChar (n % 10)]

/-- Decimal representation of a natural number, as `str` prints it. -/
def natChars (n : Nat) : List Char :=
  if n = 0 then ['0'] else natCharsAux n n

/-- Decimal representation of an integer, as `str`/`json.dumps` print it. -/
def intChars (i : Int) : List Char :=
  if i < 0 then '-' :: natChars i.natAbs else natChars i.toNat

/-- Is this character an ASCII decimal digit? -/
def isDig (c : Char) : Bool := decide ('0' ≤ c ∧ c ≤ '9')

/-- Numeric value of an ASCII digit character. -/
def digVal (c : Char) : Nat := c.toNat - 48

/-- Value of a most-significant-first digit-character list. -/
def digsVal (ds : List Char) : Nat := ds.foldl (fun a c => 10 * a + digVal c) 0

/-! ## TypographyScale (src/main.py lines 24-30)

`size_for(level) = round(base_size * ratio ** (4 - level))`.  Python's
one-argument `round` rounds half to even (banker's rounding) and returns an
`int`; the floats `base_size`/`ratio` are modelled as exact rationals. -/

/-- Python's built-in `round` to an integer: nearest integer, ties to even. -/
def pyround (q : ℚ) : ℤ :=
  if Int.fract q < 1 / 2 then ⌊q⌋
  else if 1 / 2 < Int.fract q then ⌊q⌋ + 1
  else if 2 ∣ ⌊q⌋ then ⌊q⌋ else ⌊q⌋ + 1

/-- `TypographyScale.size_for` from src/main.py line 29-30. -/
def size_for (base_size ratio : ℚ) (level : Nat) : ℤ :=
  pyround (base_size * ratio ^ (4 - level))

/-! ## Block levels and INDENT_MAP (src/main.py lines 32-37)

Block property 1001 holds the heading level as a string `"1"`..`"4"`
(or is unset).  `INDENT_MAP` maps those string keys to margin pairs. -/

/-- The four block levels, i.e. the values `"1"`, `"2"`, `"3"`, `"4"` stored
in block format property 1001. -/
inductive Lvl where
  | h1 | h2 | h3 | body
deriving DecidableEq

/-- The string stored in property 1001 for this level. -/
def Lvl.chars : Lvl → List Char
  | .h1 => ['1'] | .h2 => ['2'] | .h3 => ['3'] | .body => ['4']

/-- The numeric rank of a level (`int(level)` in the source). -/
def Lvl.num : Lvl → Nat
  | .h1 => 1 | .h2 => 2 | .h3 => 3 | .body => 4

/-- Parse a property-1001 string back into a level. -/
def lvlOfChars (s : List Char) : Option Lvl :=
  if s = ['1'] then some .h1
  else if s = ['2'] then some .h2
  else if s = ['3'] then some .h3
  else if s = ['4'] then some .body
  else none

/-- `INDENT_MAP` from src/main.py lines 32-37, keyed by the level string. -/
def INDENT_MAP (k : List Char) : Option (Int × Int) :=
  if k = ['1'] then some (0, 0)
  else if k = ['2'] then some (10, 10)
  else if k = ['3'] then some (20, 20)
  else if k = ['4'] then some (30, 30)
  else none

/-! ## Document model

A Qt `QTextDocument` is modelled as a list of blocks.  Each block carries
the block format (property 1001, alignment, list membership, margins), the
per-block `userState` integer, and its runs (text fragments with a shared
character format).  Colours and hrefs are opaque strings. -/

/-- Character-format attributes used by the program (a `QTextCharFormat`).
`size` is the point size (always an integer here because every size the
program sets comes from `size_for`, which rounds). -/
structure CharFmt where
  bold : Bool
  italic : Bool
  underline : Bool
  strike : Bool
  bg : List Char
  fg : List Char
  anchor : Bool
  href : List Char
  size : Int
deriving DecidableEq

/-- A run: a maximal span of text with one character format. -/
structure Run where
  fmt : CharFmt
  text : List Char
deriving DecidableEq

/-- Block alignment. -/
inductive Align where
  | left | center | right
deriving DecidableEq

/-- List style of a `QTextList`. -/
inductive ListStyle where
  | disc | decimal
deriving DecidableEq

/-- A text block. -/
structure Block where
  p1001 : Option Lvl
  align : Align
  listm : Option (ListStyle × Nat)
  leftMargin : Int
  rightMargin : Int
  userState : Int
  runs : List Run
deriving DecidableEq

/-- A document: the ordered block sequence. -/
abbrev Doc := List Block

/-- Plain-text length of a block (`QTextBlock.length() - 1`). -/
def blockTextLen (b : Block) : Nat :=
  (b.runs.map (fun r => r.text.length)).sum

/-! ## auto_indent_bodies (src/main.py lines 587-617)

Single scan tracking `prev_header_level`; a body block gets the margins of
`INDENT_MAP[str(prev_header_level + 1)]` (note the `+ 1` in the source at
line 604), `(0,0)` when no header was seen; unknown levels reset the
tracker. -/

/-- The scan loop of `App.auto_indent_bodies`, carrying
`prev_header_level`. -/
def auto_indent_go (prev : Option Nat) : Doc → Doc
  | [] => []
  | b :: rest =>
    match b.p1001 with
    | some .h1 => b :: auto_indent_go (some 1) rest
    | some .h2 => b :: auto_indent_go (some 2) rest
    | some .h3 => b :: auto_indent_go (some 3) rest
    | some .body =>
      let m := match prev with
        | some p => (INDENT_MAP (natChars (p + 1))).getD (0, 0)
        | none => (0, 0)
      { b with leftMargin := m.1, rightMargin := m.2 } :: auto_indent_go prev rest
    | none => b :: auto_indent_go none rest

/-- `App.auto_indent_bodies` from src/main.py lines 587-617. -/
def auto_indent_bodies (d : Doc) : Doc := auto_indent_go none d

/-- `App.update_margins` from src/main.py lines 749-754:
`INDENT_MAP.get(fmt.property(1001), (0, 0))`. -/
def update_margins (p : Option Lvl) : Int × Int :=
  match p with
  | some l => (INDENT_MAP l.chars).getD (0, 0)
  | none => (0, 0)

/-! ## Heading continuation (src/main.py lines 125-142)

`LinkableTextEdit.keyPressEvent`: after Qt inserts the paragraph break, the
new current block (which inherited the previous block's formats) is forced
to Body with the Body point size when the previous block is a heading. -/

/-- The block-level state touched by `keyPressEvent`: property 1001,
margins, and the block character format's point size. -/
structure BlockCtx where
  p1001 : Option Lvl
  leftMargin : Int
  rightMargin : Int
  charSize : Int
deriving DecidableEq

/-- The Return/Enter branch of `LinkableTextEdit.keyPressEvent`
(src/main.py lines 128-142), acting on the new block created by the break.
`prev` is `cursor.block().previous().blockFormat().property(1001)`;
`newBlock` is the new block's state as Qt left it (inherited from the
heading).  `setFont` on the fresh `QFont` merges every font property
(size plus default weight/italic/underline/strikeout); this context only
tracks the size, the one font property the theorem speaks about, so the
merge appears here as updating the size. -/
def keyPressEvent_return (base_size ratio : ℚ) (prev : Option Lvl)
    (newBlock : BlockCtx) : BlockCtx :=
  if prev = some .h1 ∨ prev = some .h2 ∨ prev = some .h3 then
    let m := update_margins (some .body)
    { newBlock with
      p1001 := some .body
      leftMargin := m.1
      rightMargin := m.2
      charSize := size_for base_size ratio 4 }
  else newBlock

/-! ## Link application and removal (src/main.py lines 644-681)

`_apply_or_remove_link` builds a fresh `QTextCharFormat` and merges it over
the selection: applying sets anchor/href/underline and the accent
foreground; removing clears the anchor and sets underline False and the
palette text foreground.  The `non_link_underline` / `non_link_fg` fields
initialised at lines 418-419 are never read anywhere in the source. -/

/-- Session context: the accent colour and the palette's default text
brush. -/
structure LinkCtx where
  accent : List Char
  paletteText : List Char
deriving DecidableEq

/-- The `checked` branch of `_apply_or_remove_link` (lines 666-669), merged
into a run's character format. -/
def apply_link_fmt (ctx : LinkCtx) (url : List Char) (f : CharFmt) : CharFmt :=
  { f with anchor := true, href := url, underline := true, fg := ctx.accent }

/-- The un-`checked` branch of `_apply_or_remove_link` (lines 670-674),
merged into a run's character format. -/
def remove_link_fmt (ctx : LinkCtx) (f : CharFmt) : CharFmt :=
  { f with anchor := false, href := [], underline := false,
           fg := ctx.paletteText }

/-- The transient link-UI state: `_pending_link_url`, the link button's
checked flag, the URL input's visibility, and the character format at the
cursor/selection. -/
structure LinkState where
  pendingUrl : List Char
  btnChecked : Bool
  inputVisible : Bool
  curFmt : CharFmt
deriving DecidableEq

/-- `App._apply_or_remove_link` (src/main.py lines 654-681).  With an empty
pending URL and `checked`, it re-shows the URL input and returns before
touching any format (lines 659-664). -/
def apply_or_remove_link (ctx : LinkCtx) (st : LinkState) (checked : Bool) :
    LinkState :=
  if checked then
    if st.pendingUrl = [] then { st with inputVisible := true }
    else { st with curFmt := apply_link_fmt ctx st.pendingUrl st.curFmt }
  else { st with curFmt := remove_link_fmt ctx st.curFmt }

/-- ASCII whitespace stripped by Python's `str.strip()` (the unicode cases
are irrelevant to the claims). -/
def isPySpace (c : Char) : Bool :=
  c = ' ' ∨ c = '\t' ∨ c = '\n' ∨ c = '\u000d' ∨ c = '\u000b' ∨ c = '\u000c'

/-- Python's `str.strip()`. -/
def pystrip (s : List Char) : List Char :=
  ((s.dropWhile isPySpace).reverse.dropWhile isPySpace).reverse

/-- `App._on_link_entered` (src/main.py lines 644-652): strip the entered
text, record it as the pending URL, hide the input, and if the link button
is checked run `_apply_or_remove_link(True)`. -/
def on_link_entered (ctx : LinkCtx) (st : LinkState) (text : List Char) :
    LinkState :=
  let url := pystrip text
  let st1 := { st with pendingUrl := url, inputVisible := false }
  if st1.btnChecked then apply_or_remove_link ctx st1 true else st1

/-! ## File-system model (for `setData` and `create_new_file`)

The directory tree the program manipulates is modelled as an association
list from full paths to file contents. -/

/-- A file system: path ↦ contents. -/
abbrev FS := List (List Char × List Char)

/-- `Path(p).exists()`. -/
def fsExists (fs : FS) (p : List Char) : Bool := fs.any (fun kv => kv.1 == p)

/-- Read a file's contents. -/
def fsLookup (fs : FS) (p : List Char) : Option (List Char) :=
  (fs.find? (fun kv => kv.1 == p)).map Prod.snd

/-- `open(p, 'w')` / `write_text`: create or truncate-and-replace. -/
def fsInsert (fs : FS) (p v : List Char) : FS :=
  if fsExists fs p then fs.map (fun kv => if kv.1 == p then (p, v) else kv)
  else fs ++ [(p, v)]

/-- Modelled from the spec: the file rename performed by Qt's
`QFileSystemModel.setData` (the `super().setData` call at line 76, which is
library code, not in src/): move the entry from the old to the new path,
reporting whether the old path existed. -/
def fsRename (fs : FS) (old new : List Char) : Bool × FS :=
  if fsExists fs old then
    (true, fs.map (fun kv => if kv.1 == old then (new, kv.2) else kv))
  else (false, fs)

/-- Python's `str.lower()` (ASCII-adequate for paths). -/
def lowerChars (s : List Char) : List Char := s.map Char.toLower

/-- The reserved extension `".grnt"`. -/
def grntSuffix : List Char := ['.', 'g', 'r', 'n', 't']

/-- `name.lower().endswith(".grnt")`. -/
def endsWithGrntLower (s : List Char) : Bool :=
  grntSuffix.isSuffixOf (lowerChars s)

/-- `os.path.dirname`: everything before the final `/` (the root-path
corner where Python keeps a trailing slash does not matter here). -/
def dirname (p : List Char) : List Char :=
  ((p.reverse.dropWhile (fun c => !(c == '/'))).drop 1).reverse

/-- `os.path.join` / `Path d / n` for a relative second component. -/
def joinPath (d n : List Char) : List Char :=
  if d = [] then n
  else if d.getLast? = some '/' then d ++ n
  else d ++ '/' :: n

/-- The new file name `setData` builds from the entered `value`
(src/main.py lines 58-60). -/
def setData_new_name (value : List Char) : List Char :=
  if endsWithGrntLower value then value else value ++ grntSuffix

/-- `GraniteFileSystemModel.setData` (src/main.py lines 55-83), reduced to
its file-system effect: append the extension if missing, refuse a no-op
rename, refuse to overwrite an existing target, otherwise rename.  The
returned `Bool` is the value `setData` reports to Qt. -/
def setData (fs : FS) (old_path value : List Char) : Bool × FS :=
  let new_name := setData_new_name value
  let new_path := joinPath (dirname old_path) new_name
  if lowerChars new_path = lowerChars old_path then (false, fs)
  else if fsExists fs new_path then (false, fs)
  else fsRename fs old_path new_path

/-- The target path `create_new_file` writes to (src/main.py lines
465-466): `selected_dir / text`, with `".grnt"` appended unless the path
already ends with it (case-sensitively, unlike `setData`). -/
def create_target (selected_dir toolbar_text : List Char) : List Char :=
  let p0 := joinPath selected_dir toolbar_text
  if grntSuffix.isSuffixOf p0 then p0 else p0 ++ grntSuffix

/-- `App.create_new_file` (src/main.py lines 464-470): open the target in
write mode (truncating whatever is there, with no existence check), then,
when no file is currently selected, copy the template `./user/file.grnt`
into it. -/
def create_new_file (fs : FS) (selected_dir toolbar_text : List Char)
    (current_file : Option (List Char)) (template : List Char) : FS :=
  let p := create_target selected_dir toolbar_text
  let fs1 := fsInsert fs p []
  if current_file = none then fsInsert fs1 p template else fs1

/-! ## The `":::"` separator (src/main.py lines 500-507 and 579)

Saving writes `json.dumps(settings) + ":::" + html`; loading splits on the
first occurrence of `":::"` (`raw.split(":::", 1)`). -/

/-- Does the string contain `":::"` (three consecutive colons)? -/
def hasC3 : List Char → Bool
  | [] => false
  | c :: rest => (c == ':' && rest.take 2 == [':', ':']) || hasC3 rest

/-- Python's `raw.split(":::", 1)`: `some (before, after)` at the first
occurrence of `":::"`, `none` when the separator does not occur
(`":::" in raw` is false). -/
def splitC3 : List Char → Option (List Char × List Char)
  | [] => none
  | c :: rest =>
    if c == ':' && rest.take 2 == [':', ':'] then some ([], rest.drop 2)
    else
      match splitC3 rest with
      | some p => some (c :: p.1, p.2)
      | none => none

/-! ## JSON (Python's `json.dumps` / `json.loads`)

The save path serialises the settings dictionary with `json.dumps`
(default separators `", "` / `": "`, `ensure_ascii=True`) and the load
path parses with `json.loads`.  JSON values are modelled syntactically:
numbers keep their literal shape (so that printing and re-parsing is
exact), floats are decimal literals (every Python float prints as one). -/

/-- A float literal: sign, integer part, fractional digits, optional
exponent. -/
structure DecLit where
  neg : Bool
  ip : Nat
  frac : List (Fin 10)
  exp : Option (Bool × Nat)
deriving DecidableEq

/-- JSON values (including the non-standard `NaN`/`Infinity` literals that
Python's `json` accepts and produces). -/
inductive Json where
  | null
  | boolean (b : Bool)
  | int (n : Int)
  | dec (d : DecLit)
  | nan
  | infinity (neg : Bool)
  | str (s : List Char)
  | arr (xs : List Json)
  | obj (kvs : List (List Char × Json))

/-- Escape of one character inside a JSON string, as Python's
`json.dumps` with `ensure_ascii=True` produces it (shorthand escapes,
`\u00XX` for other controls, `\uXXXX` and surrogate pairs for
non-ASCII). -/
def escChar (c : Char) : List Char :=
  if c = '"' then ['\\', '"']
  else if c = '\\' then ['\\', '\\']
  else if c = '\n' then ['\\', 'n']
  else if c = '\t' then ['\\', 't']
  else if c.toNat = 13 then ['\\', 'r']
  else if c.toNat = 8 then ['\\', 'b']
  else if c.toNat = 12 then ['\\', 'f']
  else if c.toNat < 32 then
    ['\\', 'u', '0', '0', hexChar (c.toNat / 16), hexChar (c.toNat % 16)]
  else if c.toNat < 127 then [c]
  else if c.toNat < 65536 then
    ['\\', 'u', hexChar (c.toNat / 4096 % 16), hexChar (c.toNat / 256 % 16),
     hexChar (c.toNat / 16 % 16), hexChar (c.toNat % 16)]
  else
    let v := c.toNat - 65536
    let hi := 55296 + v / 1024
    let lo := 56320 + v % 1024
    ['\\', 'u', hexChar (hi / 4096 % 16), hexChar (hi / 256 % 16),
     hexChar (hi / 16 % 16), hexChar (hi % 16),
     '\\', 'u', hexChar (lo / 4096 % 16), hexChar (lo / 256 % 16),
     hexChar (lo / 16 % 16), hexChar (lo % 16)]

/-- Escape a whole string (without the surrounding quotes). -/
def escString : List Char → List Char
  | [] => []
  | c :: rest => escChar c ++ escString rest

/-- Digit of a float literal as a character. -/
def finChar (d : Fin 10) : Char := digitChar d.val

/-- Print a float literal the way `repr(float)` / `json.dumps` does
(`-?ip.frac` with an optional `e±exp`). -/
def decChars (d : DecLit) : List Char :=
  (if d.neg then ['-'] else []) ++ natChars d.ip ++
  (if d.frac = [] then [] else '.' :: d.frac.map finChar) ++
  (match d.exp with
   | none => []
   | some p => 'e' :: (if p.1 then ['-'] else ['+']) ++ natChars p.2)

mutual

/-- `json.dumps` with its default separators. -/
def printJson : Json → List Char
  | .null => ['n', 'u', 'l', 'l']
  | .boolean true => ['t', 'r', 'u', 'e']
  | .boolean false => ['f', 'a', 'l', 's', 'e']
  | .int n => intChars n
  | .dec d => decChars d
  | .nan => ['N', 'a', 'N']
  | .infinity false => ['I', 'n', 'f', 'i', 'n', 'i', 't', 'y']
  | .infinity true => ['-', 'I', 'n', 'f', 'i', 'n', 'i', 't', 'y']
  | .str s => '"' :: (escString s ++ ['"'])
  | .arr xs => '[' :: (printElems xs ++ [']'])
  | .obj kvs => '{' :: (printMembs kvs ++ ['}'])

/-- Array elements, joined by `", "`. -/
def printElems : List Json → List Char
  | [] => []
  | [x] => printJson x
  | x :: y :: xs => printJson x ++ ',' :: ' ' :: printElems (y :: xs)

/-- Object members, `"key": value` joined by `", "`. -/
def printMembs : List (List Char × Json) → List Char
  | [] => []
  | [(k, v)] => '"' :: (escString k ++ '"' :: ':' :: ' ' :: printJson v)
  | (k, v) :: m :: ms =>
    '"' :: (escString k ++ '"' :: ':' :: ' ' :: printJson v ++
      ',' :: ' ' :: printMembs (m :: ms))

end

/-- JSON whitespace skipped by `json.loads`. -/
def skipWs (s : List Char) : List Char :=
  s.dropWhile (fun c => c == ' ' || c == '\t' || c == '\n' || c == '\u000d')

/-- Value of one hexadecimal digit. -/
def hexVal (c : Char) : Option Nat :=
  if '0' ≤ c ∧ c ≤ '9' then some (c.toNat - 48)
  else if 'a' ≤ c ∧ c ≤ 'f' then some (c.toNat - 87)
  else if 'A' ≤ c ∧ c ≤ 'F' then some (c.toNat - 55)
  else none

/-- Value of a 4-digit hexadecimal escape. -/
def hex4 (a b c d : Char) : Option Nat := do
  let x ← hexVal a
  let y ← hexVal b
  let z ← hexVal c
  let w ← hexVal d
  pure (4096 * x + 256 * y + 16 * z + w)

/-- Decode a shorthand escape character. -/
def escDecode (e : Char) : Option Char :=
  if e = '"' then some '"'
  else if e = '\\' then some '\\'
  else if e = '/' then some '/'
  else if e = 'b' then some (Char.ofNat 8)
  else if e = 'f' then some (Char.ofNat 12)
  else if e = 'n' then some '\n'
  else if e = 'r' then some (Char.ofNat 13)
  else if e = 't' then some '\t'
  else none

mutual

/-- Parse a JSON string body (after the opening quote) up to the closing
quote, strict mode (raw control characters rejected).  Python tolerates
lone surrogate escapes, which a Lean `Char` cannot hold; those are
modelled as failure (they never occur in output this program writes). -/
def psb : List Char → Option (List Char × List Char)
  | [] => none
  | c :: rest =>
    if c = '"' then some ([], rest)
    else if c = '\\' then psbEsc rest
    else if c.toNat < 32 then none
    else (psb rest).map (fun p => (c :: p.1, p.2))

/-- After a backslash: a `\uXXXX` escape or a shorthand escape. -/
def psbEsc : List Char → Option (List Char × List Char)
  | [] => none
  | e :: rest1 =>
    if e = 'u' then psbU rest1
    else
      match escDecode e with
      | none => none
      | some ch => (psb rest1).map (fun p => (ch :: p.1, p.2))

/-- After `\u`: four hex digits; a high surrogate must be followed by a
low-surrogate escape. -/
def psbU : List Char → Option (List Char × List Char)
  | a :: b :: c2 :: d :: rest2 =>
    match hex4 a b c2 d with
    | none => none
    | some n =>
      if 55296 ≤ n ∧ n < 56320 then psbLo n rest2
      else if 56320 ≤ n ∧ n < 57344 then none
      else (psb rest2).map (fun p => (Char.ofNat n :: p.1, p.2))
  | _ => none

/-- After a high surrogate `\uXXXX` of value `n`: the low-surrogate
escape, combined into one code point. -/
def psbLo (n : Nat) : List Char → Option (List Char × List Char)
  | e2 :: u2 :: a2 :: b2 :: c3 :: d2 :: rest3 =>
    if e2 = '\\' ∧ u2 = 'u' then
      match hex4 a2 b2 c3 d2 with
      | none => none
      | some m =>
        if 56320 ≤ m ∧ m < 57344 then
          (psb rest3).map
            (fun p =>
              (Char.ofNat (65536 + 1024 * (n - 55296) + (m - 56320)) :: p.1,
                p.2))
        else none
    else none
  | _ => none

end

/-- `span` over digit characters (the greedy digit run and the rest). -/
def spanDigits (s : List Char) : List Char × List Char :=
  (s.takeWhile isDig, s.dropWhile isDig)

/-- The integer-digit part of a JSON number: a single `0`, or a nonzero
digit followed by digits (JSON forbids leading zeros). -/
def parseIntDigits : List Char → Option (List Char × List Char)
  | [] => none
  | c :: rest =>
    if c = '0' then some (['0'], rest)
    else if isDig c then
      let p := spanDigits rest
      some (c :: p.1, p.2)
    else none

/-- Digit character to `Fin 10`. -/
def charFin (c : Char) : Fin 10 := ⟨digVal c % 10, Nat.mod_lt _ (by norm_num)⟩

/-- Optional fractional part `.digits`; with no digit after the dot the
number ends before the dot (as Python's number regex decides). -/
def parseFracPart : List Char → Option (List (Fin 10)) × List Char
  | [] => (none, [])
  | c :: t =>
    if c = '.' then
      match spanDigits t with
      | ([], _) => (none, c :: t)
      | (ds, t2) => (some (ds.map charFin), t2)
    else (none, c :: t)

/-- Exponent digits after `e`/`E` (with optional sign); with no digit the
number ends before the `e`. -/
def parseExpAux (t fallback : List Char) : Option (Bool × Nat) × List Char :=
  let p : Bool × List Char := match t with
    | [] => (false, [])
    | c :: u =>
      if c = '+' then (false, u)
      else if c = '-' then (true, u)
      else (false, c :: u)
  match spanDigits p.2 with
  | ([], _) => (none, fallback)
  | (ds, t2) => (some (p.1, digsVal ds), t2)

/-- Optional exponent part. -/
def parseExpPart : List Char → Option (Bool × Nat) × List Char
  | [] => (none, [])
  | c :: t =>
    if c = 'e' ∨ c = 'E' then parseExpAux t (c :: t)
    else (none, c :: t)

/-- The body of a JSON number after the optional leading minus. -/
def parseNumCore (neg : Bool) (s2 : List Char) : Option (Json × List Char) :=
  match parseIntDigits s2 with
  | none => none
  | some (ids, r1) =>
    let fp := parseFracPart r1
    let ep := parseExpPart fp.2
    match fp.1, ep.1 with
    | none, none =>
      some (.int (if neg then -(digsVal ids : Int) else (digsVal ids : Int)),
            ep.2)
    | _, _ => some (.dec ⟨neg, digsVal ids, fp.1.getD [], ep.1⟩, ep.2)

/-- Parse a JSON number (Python's `NUMBER_RE`): `int` when there is
neither fraction nor exponent, float literal otherwise. -/
def parseNum : List Char → Option (Json × List Char)
  | [] => parseNumCore false []
  | c :: t => if c = '-' then parseNumCore true t else parseNumCore false (c :: t)

/-- Keyword literals accepted at value positions. -/
def kwTrue : List Char := ['t', 'r', 'u', 'e']

/-- `false` keyword. -/
def kwFalse : List Char := ['f', 'a', 'l', 's', 'e']

/-- `null` keyword. -/
def kwNull : List Char := ['n', 'u', 'l', 'l']

/-- `NaN` literal (accepted by Python's `json.loads`). -/
def kwNaN : List Char := ['N', 'a', 'N']

/-- `Infinity` literal. -/
def kwInf : List Char := ['I', 'n', 'f', 'i', 'n', 'i', 't', 'y']

/-- `-Infinity` literal. -/
def kwNegInf : List Char := ['-', 'I', 'n', 'f', 'i', 'n', 'i', 't', 'y']

/-- `s.startswith(kw)`: does the second list start with the first? -/
def isPre : List Char → List Char → Bool
  | [], _ => true
  | a :: as, t =>
    match t with
    | [] => false
    | b :: bs => if a = b then isPre as bs else false

/-- Object-member loop, after a member's value: expect `,` (next member)
or `}` (end).  `pjm` is the continuation into the member loop. -/
def pjMembKont2
    (pjm : List (List Char × Json) → List Char → Option (Json × List Char))
    (acc : List (List Char × Json)) (k : List Char) :
    Json × List Char → Option (Json × List Char)
  | (v, r3) =>
    match skipWs r3 with
    | [] => none
    | c4 :: r4 =>
      if c4 = ',' then pjm (acc ++ [(k, v)]) r4
      else if c4 = '}' then some (.obj (acc ++ [(k, v)]), r4)
      else none

/-- Object-member loop, after a member's key string: expect `:` then the
value.  `pjv` parses a value; `pjm` continues the member loop. -/
def pjMembKont (pjv : List Char → Option (Json × List Char))
    (pjm : List (List Char × Json) → List Char → Option (Json × List Char))
    (acc : List (List Char × Json)) :
    List Char × List Char → Option (Json × List Char)
  | (k, r1) =>
    match skipWs r1 with
    | [] => none
    | c2 :: r2 =>
      if c2 = ':' then (pjv r2).bind (pjMembKont2 pjm acc k)
      else none

/-- Array-element loop, after an element: expect `,` (next element) or `]`
(end).  `pje` continues the element loop. -/
def pjElemKont (pje : List Json → List Char → Option (Json × List Char))
    (acc : List Json) : Json × List Char → Option (Json × List Char)
  | (v, r1) =>
    match skipWs r1 with
    | [] => none
    | c2 :: r2 =>
      if c2 = ',' then pje (acc ++ [v]) r2
      else if c2 = ']' then some (.arr (acc ++ [v]), r2)
      else none

/-- Parser request: a value, the member loop of an object (after `{`), or
the element loop of an array (after `[`), with the accumulated prefix. -/
inductive JPar where
  | jval
  | jmembs (acc : List (List Char × Json))
  | jelems (acc : List Json)

/-- Recursive-descent JSON parser (the core of `json.loads`).  The fuel
only bounds the recursion; `jsonLoads` supplies more than any input can
consume. -/
def pj : Nat → JPar → List Char → Option (Json × List Char)
  | 0, _, _ => none
  | f + 1, .jval, s0 =>
    match skipWs s0 with
    | [] => none
    | c :: rest =>
      if c = '{' then
        match skipWs rest with
        | [] => pj f (.jmembs []) []
        | d :: r => if d = '}' then some (.obj [], r)
                    else pj f (.jmembs []) (d :: r)
      else if c = '[' then
        match skipWs rest with
        | [] => pj f (.jelems []) []
        | d :: r => if d = ']' then some (.arr [], r)
                    else pj f (.jelems []) (d :: r)
      else if c = '"' then (psb rest).map (fun p => (.str p.1, p.2))
      else if isPre kwTrue (c :: rest) then
        some (.boolean true, (c :: rest).drop 4)
      else if isPre kwFalse (c :: rest) then
        some (.boolean false, (c :: rest).drop 5)
      else if isPre kwNull (c :: rest) then
        some (.null, (c :: rest).drop 4)
      else if isPre kwNaN (c :: rest) then
        some (.nan, (c :: rest).drop 3)
      else if isPre kwInf (c :: rest) then
        some (.infinity false, (c :: rest).drop 8)
      else if isPre kwNegInf (c :: rest) then
        some (.infinity true, (c :: rest).drop 9)
      else parseNum (c :: rest)
  | f + 1, .jmembs acc, s =>
    match skipWs s with
    | [] => none
    | c :: rest =>
      if c = '"' then
        (psb rest).bind
          (pjMembKont (pj f .jval) (fun acc2 => pj f (.jmembs acc2)) acc)
      else none
  | f + 1, .jelems acc, s =>
    (pj f .jval s).bind (pjElemKont (fun acc2 => pj f (.jelems acc2)) acc)

/-- `json.loads`: parse one value and require only whitespace after it
("Extra data" otherwise).  `none` models `json.JSONDecodeError`. -/
def jsonLoads (s : List Char) : Option Json :=
  match pj (s.length + 1) .jval s with
  | some (v, rest) => if skipWs rest = [] then some v else none
  | none => none

/-! ## Markup (HTML) codec for the document body

Modelled from the spec: Qt's `QTextDocument.toHtml` / `setHtml`
(PySide6 library code, not in src/) serialise the visible block/run tree
losslessly (§4.4: the markup "MUST preserve every Run attribute and Block
alignment/listMembership losslessly").  The custom block property 1001 and
`userState` are NOT part of the markup (that is why `save` writes
`block_states` into the JSON header), and `setHtml` leaves them at their
defaults (`None` / `-1`).  The concrete wire format chosen here is a
simple length-prefixed encoding; only its losslessness matters. -/

/-- A number field terminated by `#`. -/
def natTag (n : Nat) : List Char := natChars n ++ ['#']

/-- A signed number field terminated by `#`. -/
def intTag (i : Int) : List Char := intChars i ++ ['#']

/-- A length-prefixed string field. -/
def strTag (s : List Char) : List Char := natTag s.length ++ s

/-- A boolean field. -/
def boolCh (b : Bool) : List Char := [if b then '1' else '0']

/-- Alignment field. -/
def alignCh (a : Align) : List Char :=
  match a with
  | .left => ['l'] | .center => ['c'] | .right => ['r']

/-- List-membership field. -/
def listTag (m : Option (ListStyle × Nat)) : List Char :=
  match m with
  | none => ['n']
  | some (.disc, g) => 'b' :: natTag g
  | some (.decimal, g) => 'd' :: natTag g

/-- Encode one run. -/
def encRun (r : Run) : List Char :=
  boolCh r.fmt.bold ++ boolCh r.fmt.italic ++ boolCh r.fmt.underline ++
  boolCh r.fmt.strike ++ boolCh r.fmt.anchor ++ strTag r.fmt.bg ++
  strTag r.fmt.fg ++ strTag r.fmt.href ++ intTag r.fmt.size ++ strTag r.text

/-- Encode a list of runs. -/
def encRuns : List Run → List Char
  | [] => []
  | r :: rs => encRun r ++ encRuns rs

/-- Encode the markup-visible part of one block. -/
def encBlockVis (b : Block) : List Char :=
  alignCh b.align ++ listTag b.listm ++ intTag b.leftMargin ++
  intTag b.rightMargin ++ natTag b.runs.length ++ encRuns b.runs

/-- Encode a list of blocks. -/
def encBlocks : Doc → List Char
  | [] => []
  | b :: bs => encBlockVis b ++ encBlocks bs

/-- `QTextDocument.toHtml` (modelled, see section comment). -/
def qt_toHtml (d : Doc) : List Char := natTag d.length ++ encBlocks d

/-- Parse a `#`-terminated number field. -/
def parseNatTag (s : List Char) : Option (Nat × List Char) :=
  match spanDigits s with
  | ([], _) => none
  | (ds, r) =>
    match r with
    | '#' :: r2 => some (digsVal ds, r2)
    | _ => none

/-- Parse a signed number field. -/
def parseIntTag : List Char → Option (Int × List Char)
  | [] => none
  | c :: t =>
    if c = '-' then (parseNatTag t).map (fun p => (-(p.1 : Int), p.2))
    else (parseNatTag (c :: t)).map (fun p => ((p.1 : Int), p.2))

/-- Parse a length-prefixed string field. -/
def parseStrTag (s : List Char) : Option (List Char × List Char) := do
  let p ← parseNatTag s
  if p.1 ≤ p.2.length then some (p.2.take p.1, p.2.drop p.1) else none

/-- Parse a boolean field. -/
def parseBoolCh : List Char → Option (Bool × List Char)
  | '0' :: r => some (false, r)
  | '1' :: r => some (true, r)
  | _ => none

/-- Parse an alignment field. -/
def parseAlignCh : List Char → Option (Align × List Char)
  | 'l' :: r => some (.left, r)
  | 'c' :: r => some (.center, r)
  | 'r' :: r => some (.right, r)
  | _ => none

/-- Parse a list-membership field. -/
def parseListTag : List Char → Option (Option (ListStyle × Nat) × List Char)
  | 'n' :: r => some (none, r)
  | 'b' :: r => (parseNatTag r).map (fun p => (some (.disc, p.1), p.2))
  | 'd' :: r => (parseNatTag r).map (fun p => (some (.decimal, p.1), p.2))
  | _ => none

/-- Parse one run. -/
def parseRun (s : List Char) : Option (Run × List Char) := do
  let b1 ← parseBoolCh s
  let b2 ← parseBoolCh b1.2
  let b3 ← parseBoolCh b2.2
  let b4 ← parseBoolCh b3.2
  let b5 ← parseBoolCh b4.2
  let sbg ← parseStrTag b5.2
  let sfg ← parseStrTag sbg.2
  let shref ← parseStrTag sfg.2
  let isz ← parseIntTag shref.2
  let stext ← parseStrTag isz.2
  pure (⟨⟨b1.1, b2.1, b3.1, b4.1, sbg.1, sfg.1, b5.1, shref.1, isz.1⟩,
          stext.1⟩, stext.2)

/-- Parse `n` runs. -/
def parseRuns : Nat → List Char → Option (List Run × List Char)
  | 0, s => some ([], s)
  | n + 1, s => do
    let p ← parseRun s
    let q ← parseRuns n p.2
    pure (p.1 :: q.1, q.2)

/-- Parse one block; property 1001 and `userState` take their `setHtml`
defaults. -/
def parseBlock (s : List Char) : Option (Block × List Char) := do
  let a ← parseAlignCh s
  let m ← parseListTag a.2
  let lm ← parseIntTag m.2
  let rm ← parseIntTag lm.2
  let nr ← parseNatTag rm.2
  let rs ← parseRuns nr.1 nr.2
  pure (⟨none, a.1, m.1, lm.1, rm.1, -1, rs.1⟩, rs.2)

/-- Parse `n` blocks. -/
def parseHtmlBlocks : Nat → List Char → Option (Doc × List Char)
  | 0, s => some ([], s)
  | n + 1, s => do
    let p ← parseBlock s
    let q ← parseHtmlBlocks n p.2
    pure (p.1 :: q.1, q.2)

/-- Default character format of a fresh document. -/
def defaultCharFmt : CharFmt := ⟨false, false, false, false, [], [], false, [], 0⟩

/-- The document `setHtml` produces from markup it cannot interpret as the
structured format: a single default block holding the text (Qt renders
unknown markup as plain content; only totality matters here). -/
def fallbackDoc (html : List Char) : Doc :=
  [⟨none, .left, none, 0, 0, -1, [⟨defaultCharFmt, html⟩]⟩]

/-- `QTextDocument.setHtml` (modelled, see section comment): total, and a
left inverse of `qt_toHtml` up to the attributes markup does not carry. -/
def qt_setHtml (html : List Char) : Doc :=
  match (do
    let p ← parseNatTag html
    parseHtmlBlocks p.1 p.2 : Option (Doc × List Char)) with
  | some (bs, rest) => if rest = [] then bs else fallbackDoc html
  | none => fallbackDoc html

/-- A block as `setHtml` reconstructs it: markup-visible attributes kept,
property 1001 and `userState` at their defaults. -/
def stripBlockState (b : Block) : Block := { b with p1001 := none, userState := -1 }

/-! ## The persistence codec (src/main.py: `App.save` lines 550-584 and
the `get` closure of `App.on_file_selection_changed` lines 495-528) -/

/-- The document-scoped settings (`App.settings_dict`): `scale_base` an
int, `scale_ratio` a float (a decimal literal), `accent_color` a string.
Python keeps whatever JSON value a loaded file supplies; files this
program writes always carry these types, and on a type mismatch the model
keeps the previous value. -/
structure Settings where
  scale_base : Int
  scale_ratio : DecLit
  accent_color : List Char
deriving DecidableEq

/-- Value of a digit list, most significant first. -/
def digsValF (ds : List (Fin 10)) : Nat := ds.foldl (fun a d => 10 * a + d.val) 0

/-- Rational value of a float literal. -/
def decVal (d : DecLit) : ℚ :=
  let mag : ℚ := (d.ip : ℚ) + (digsValF d.frac : ℚ) / 10 ^ d.frac.length
  let mag := match d.exp with
    | none => mag
    | some p => if p.1 then mag / 10 ^ p.2 else mag * 10 ^ p.2
  if d.neg then -mag else mag

/-- One `block_states` entry as `save` collects it (lines 556-570):
`pos = block.position()`, the `userState` integer, and property 1001. -/
structure BState where
  pos : Int
  userState : Int
  p1001 : Option Lvl
deriving DecidableEq

/-- The `save` loop over blocks: `block.position()` is the running offset
(text length plus one separator per preceding block). -/
def blocksData : Doc → Int → List BState
  | [], _ => []
  | b :: rest, p =>
    ⟨p, b.userState, b.p1001⟩ :: blocksData rest (p + blockTextLen b + 1)

/-- JSON object key `"pos"`. -/
def keyPos : List Char := ['p', 'o', 's']

/-- JSON object key `"userState"`. -/
def keyUserState : List Char := ['u', 's', 'e', 'r', 'S', 't', 'a', 't', 'e']

/-- JSON object key `"1001"`. -/
def key1001 : List Char := ['1', '0', '0', '1']

/-- JSON object key `"scale_base"`. -/
def keyScaleBase : List Char := ['s', 'c', 'a', 'l', 'e', '_', 'b', 'a', 's', 'e']

/-- JSON object key `"scale_ratio"`. -/
def keyScaleRatio : List Char :=
  ['s', 'c', 'a', 'l', 'e', '_', 'r', 'a', 't', 'i', 'o']

/-- JSON object key `"accent_color"`. -/
def keyAccentColor : List Char :=
  ['a', 'c', 'c', 'e', 'n', 't', '_', 'c', 'o', 'l', 'o', 'r']

/-- JSON object key `"block_states"`. -/
def keyBlockStates : List Char :=
  ['b', 'l', 'o', 'c', 'k', '_', 's', 't', 'a', 't', 'e', 's']

/-- One `blocks_data` entry as a JSON object (a `None` property is dumped
as `null`). -/
def bstateJson (b : BState) : Json :=
  .obj [(keyPos, .int b.pos), (keyUserState, .int b.userState),
        (key1001, match b.p1001 with
          | some l => .str l.chars
          | none => .null)]

/-- The settings dictionary `save` serialises (insertion order:
`scale_base`, `scale_ratio`, `accent_color`, then `block_states`). -/
def settingsJson (S : Settings) (bs : List BState) : Json :=
  .obj [(keyScaleBase, .int S.scale_base),
        (keyScaleRatio, .dec S.scale_ratio),
        (keyAccentColor, .str S.accent_color),
        (keyBlockStates, .arr (bs.map bstateJson))]

/-- The separator written between header and markup. -/
def sepC3 : List Char := [':', ':', ':']

/-- `App.save` (the `store` closure, lines 551-579): the full file text
`json.dumps(settings) + ":::" + doc.toHtml()`. -/
def save (S : Settings) (d : Doc) : List Char :=
  printJson (settingsJson S (blocksData d 0)) ++ sepC3 ++ qt_toHtml d

/-- Python `dict` lookup on a parsed JSON object (later duplicate keys
override earlier ones, as in `json.loads`). -/
def jGet (j : Json) (k : List Char) : Option Json :=
  match j with
  | .obj kvs => kvs.foldl (fun acc kv => if kv.1 = k then some kv.2 else acc) none
  | _ => none

/-- Lines 500-507: split the raw file text on the first `":::"` and try
`json.loads` on the header; `none` is the `settings = {}` recovery (both
for a missing separator and for a parse failure). -/
def decodeSplit (raw : List Char) : Option Json × List Char :=
  match splitC3 raw with
  | some p => (jsonLoads p.1, p.2)
  | none => (none, raw)

/-- Lines 512-513: `settings_dict.update({k: settings.get(k, old[k]) ...})`. -/
def updateSettings (old : Settings) (js : Option Json) : Settings :=
  match js with
  | none => old
  | some j =>
    { scale_base := match jGet j keyScaleBase with
        | some (.int n) => n
        | _ => old.scale_base
      scale_ratio := match jGet j keyScaleRatio with
        | some (.dec d) => d
        | _ => old.scale_ratio
      accent_color := match jGet j keyAccentColor with
        | some (.str s) => s
        | _ => old.accent_color }

/-- The settings part of opening a file (`get`, lines 496-513). -/
def decode_settings (old : Settings) (raw : List Char) : Settings :=
  updateSettings old (decodeSplit raw).1

/-- Scan for the block containing text position `p` (each block occupies
its text plus one separator position). -/
def findBlockIdxGo : Doc → Nat → Nat → Option Nat
  | [], _, _ => none
  | b :: rest, p, i =>
    if p ≤ blockTextLen b then some i
    else findBlockIdxGo rest (p - blockTextLen b - 1) (i + 1)

/-- `doc.findBlock(pos)`: `none` models an invalid block. -/
def findBlockIdx (d : Doc) (p : Int) : Option Nat :=
  if p < 0 then none else findBlockIdxGo d p.toNat 0

/-- Update the block at index `i` from entry `j` (the body of the
`block_states` loop once the block is found). -/
def applyBStateIdx (d : Doc) (j : Json) (i : Nat) : Doc :=
  match d[i]? with
  | some blk =>
    let us := match jGet j keyUserState with
      | some (.int n) => n
      | _ => blk.userState
    let lv := match jGet j key1001 with
      | some (.str s) => lvlOfChars s
      | _ => none
    d.set i { blk with userState := us, p1001 := lv }
  | none => d

/-- Find the block at position `pos` and update it from entry `j`. -/
def applyBStateAt (d : Doc) (j : Json) (pos : Int) : Doc :=
  match findBlockIdx d pos with
  | some i => applyBStateIdx d j i
  | none => d

/-- Apply one `block_states` entry (lines 516-524): find the block at
`b["pos"]`, set its `userState` and property 1001.  A saved `null`
property clears the property.  (A malformed entry is skipped; Python
would raise `KeyError` on a missing `"pos"`/`"userState"`, which no file
this program writes contains.) -/
def applyBState (d : Doc) (j : Json) : Doc :=
  match jGet j keyPos with
  | some (.int pos) => applyBStateAt d j pos
  | _ => d

/-- The `for b in settings.get("block_states", [])` loop. -/
def applyBStates (d : Doc) (items : List Json) : Doc := items.foldl applyBState d

/-- `settings.get("block_states", [])`. -/
def blockStatesOf (js : Option Json) : List Json :=
  match js with
  | some j =>
    match jGet j keyBlockStates with
    | some (.arr xs) => xs
    | _ => []
  | none => []

/-- `int(level)` with the `if not level: level = 4` default of
`apply_typography_scale` (line 732). -/
def lvlNumOpt (p : Option Lvl) : Nat :=
  match p with
  | some l => l.num
  | none => 4

/-- Merging the scale char format into one run (line 741:
`char_fmt.setFont(font)` with the default `FontPropertiesAll`): the merged
format carries every font property of the fresh `QFont` — the computed
point size together with the default weight/italic/underline/strikeout —
so the run's bold, italic, underline and strikethrough are reset along
with its size.  Non-font attributes (colours, anchor, href) are kept. -/
def scaleRun (sz : Int) (r : Run) : Run :=
  { r with fmt :=
      { r.fmt with
          bold := false
          italic := false
          underline := false
          strike := false
          size := sz } }

/-- The per-block body of `apply_typography_scale`. -/
def scaleBlock (S : Settings) (b : Block) : Block :=
  let sz := size_for (S.scale_base : ℚ) (decVal S.scale_ratio) (lvlNumOpt b.p1001)
  { b with runs := b.runs.map (scaleRun sz) }

/-- `App.apply_typography_scale` (lines 725-746): merge, into every run of
each block, a char format holding a fresh `QFont` whose point size is
`size_for` of the block's level. -/
def apply_typography_scale (S : Settings) (d : Doc) : Doc :=
  d.map (scaleBlock S)

/-- The document part of opening a file (`get`, lines 509-528): parse the
markup, re-apply the block states, re-run the typography scale and the
indent scan. -/
def decode_doc (old : Settings) (raw : List Char) : Doc :=
  let p := decodeSplit raw
  let d0 := qt_setHtml p.2
  let st := updateSettings old p.1
  let d1 := applyBStates d0 (blockStatesOf p.1)
  let d2 := apply_typography_scale st d1
  auto_indent_bodies d2

/-- Sizes in a document agree with the typography scale for the given
settings (the data model derives font size from the block level, §4.1). -/
def sizeConsistent (S : Settings) (b : Block) : Prop :=
  ∀ r ∈ b.runs,
    r.fmt.size = size_for (S.scale_base : ℚ) (decVal S.scale_ratio) (lvlNumOpt b.p1001)

/-- A document expressible in the data model for settings `S`. -/
def DocWF (S : Settings) (d : Doc) : Prop := ∀ b ∈ d, sizeConsistent S b

/-- No run of the document carries the font-style attributes that the
on-load scale pass resets (`setFont` with `FontPropertiesAll` merges the
fresh `QFont`'s default weight, italic, underline and strikeout). -/
def plainFontStyles (d : Doc) : Prop :=
  ∀ b ∈ d, ∀ r ∈ b.runs,
    r.fmt.bold = false ∧ r.fmt.italic = false ∧
    r.fmt.underline = false ∧ r.fmt.strike = false

/-- Block equality with the re-derived margins excluded. -/
def blockEqNoMargins (a b : Block) : Prop :=
  a.p1001 = b.p1001 ∧ a.align = b.align ∧ a.listm = b.listm ∧
  a.userState = b.userState ∧ a.runs = b.runs

/-- Document equality with margins excluded. -/
def docEqNoMargins (x y : Doc) : Prop := List.Forall₂ blockEqNoMargins x y

/-- A block with only a level set (for concrete evaluations). -/
def plainBlock (l : Option Lvl) : Block := ⟨l, .left, none, 0, 0, -1, []⟩

/-- Concrete settings for witnesses: base 12, ratio 1.25, accent `"#ab"`. -/
def exSettings : Settings :=
  ⟨12, ⟨false, 1, [⟨2, by omega⟩, ⟨5, by omega⟩], none⟩, ['#', 'a', 'b']⟩

/-- Concrete settings whose accent colour is the separator `":::"`. -/
def exSettingsColon : Settings :=
  ⟨12, ⟨false, 1, [⟨2, by omega⟩, ⟨5, by omega⟩], none⟩, [':', ':', ':']⟩

/-- A bold run at the Body size of `exSettings` (base 12, ratio 1.25). -/
def boldRun : Run := ⟨⟨true, false, false, false, [], [], false, [], 12⟩, ['h', 'i']⟩

/-- A Body block holding `boldRun`. -/
def boldBlock : Block := ⟨some .body, .left, none, 0, 0, -1, [boldRun]⟩

/-- A value whose printed form neither contains `":::"` nor ends in a
colon. -/
def PrintSafe (v : Json) : Prop :=
  hasC3 (printJson v) = false ∧
  ∀ c, (printJson v).getLast? = some c → c ≠ ':'

/-- A parse boundary for a JSON number: the following character (if any)
cannot extend the number. -/
def numBoundary (rest : List Char) : Prop :=
  ∀ c, rest.head? = some c →
    isDig c = false ∧ c ≠ '.' ∧ c ≠ 'e' ∧ c ≠ 'E'

/-- The text position of the block after a document prefix (each block
occupies its text plus one separator position), as `save` computes it. -/
def docPos : Doc → Nat
  | [] => 0
  | b :: t => blockTextLen b + 1 + docPos t

/-! # Theorems -/

/-! ## Properties of Python's `round` -/

theorem pyround_floor_le (q : ℚ) : ⌊q⌋ ≤ pyround q := by
  unfold pyround
  split_ifs <;> omega

theorem pyround_le_floor_succ (q : ℚ) : pyround q ≤ ⌊q⌋ + 1 := by
  unfold pyround
  split_ifs <;> omega

theorem fract_eq_of_floor {q : ℚ} {f : ℤ} (hf : ⌊q⌋ = f) :
    Int.fract q = q - (f : ℚ) := by
  rw [Int.fract, hf]

theorem pyround_mono {q p : ℚ} (h : q ≤ p) : pyround q ≤ pyround p := by
  rcases le_or_lt (⌊q⌋ + 1) ⌊p⌋ with hf | hf
  · calc pyround q ≤ ⌊q⌋ + 1 := pyround_le_floor_succ q
      _ ≤ ⌊p⌋ := hf
      _ ≤ pyround p := pyround_floor_le p
  · have hql : ⌊q⌋ ≤ ⌊p⌋ := Int.floor_le_floor h
    have heq : ⌊p⌋ = ⌊q⌋ := by omega
    have hfr : Int.fract q ≤ Int.fract p := by
      rw [Int.fract, Int.fract, heq]
      linarith
    unfold pyround
    rw [heq]
    split_ifs <;> first | omega | linarith

theorem pyround_eq_of_lt_half {q : ℚ} {f : ℤ} (h0 : (f : ℚ) ≤ q)
    (h1 : q < (f : ℚ) + 1 / 2) : pyround q = f := by
  have hf : ⌊q⌋ = f := Int.floor_eq_iff.mpr ⟨h0, by linarith⟩
  have hlt : Int.fract q < 1 / 2 := by
    rw [fract_eq_of_floor hf]
    linarith
  unfold pyround
  rw [if_pos hlt, hf]

theorem pyround_eq_of_gt_half {q : ℚ} {f : ℤ} (h0 : (f : ℚ) + 1 / 2 < q)
    (h1 : q < (f : ℚ) + 1) : pyround q = f + 1 := by
  have hf : ⌊q⌋ = f := Int.floor_eq_iff.mpr ⟨by linarith, by linarith⟩
  have hgt : 1 / 2 < Int.fract q := by
    rw [fract_eq_of_floor hf]
    linarith
  unfold pyround
  rw [if_neg (by linarith), if_pos hgt, hf]

/-! ## C5: typography scale ordering -/

/-- C5 counterexample: the claim's strict ordering
`sizeFor(H1) > sizeFor(H2) > sizeFor(H3) > sizeFor(Body)` fails for
`base = 1`, `ratio = 5/4`: rounding collapses H1 and H2 to the same size
(`round(125/64) = round(25/16) = 2`). -/
theorem c5_counterexample :
    ¬ (∀ base ratio : ℚ, 0 < base → 1 < ratio →
        size_for base ratio 2 < size_for base ratio 1 ∧
        size_for base ratio 3 < size_for base ratio 2 ∧
        size_for base ratio 4 < size_for base ratio 3) := by
  intro h
  obtain ⟨h1, -, -⟩ := h 1 (5 / 4) one_pos (by norm_num)
  have e1 : size_for 1 (5 / 4) 1 = 2 := by
    unfold size_for
    have ev : (1 : ℚ) * (5 / 4) ^ (4 - 1 : Nat) = 125 / 64 := by norm_num
    rw [ev]
    have := pyround_eq_of_gt_half (q := 125 / 64) (f := 1) (by norm_num) (by norm_num)
    omega
  have e2 : size_for 1 (5 / 4) 2 = 2 := by
    unfold size_for
    have ev : (1 : ℚ) * (5 / 4) ^ (4 - 2 : Nat) = 25 / 16 := by norm_num
    rw [ev]
    have := pyround_eq_of_gt_half (q := 25 / 16) (f := 1) (by norm_num) (by norm_num)
    omega
  omega

/-- C5 (amended): for every base > 0 and ratio > 1 the typography scale is
monotone across levels, `sizeFor(H1) ≥ sizeFor(H2) ≥ sizeFor(H3) ≥
sizeFor(Body)`; rounding can collapse neighbouring levels, so the ordering
is non-strict. -/
theorem c5_size_for_monotone (base ratio : ℚ) (hb : 0 < base) (hr : 1 < ratio) :
    size_for base ratio 2 ≤ size_for base ratio 1 ∧
    size_for base ratio 3 ≤ size_for base ratio 2 ∧
    size_for base ratio 4 ≤ size_for base ratio 3 := by
  have step : ∀ k m : Nat, k ≤ m →
      pyround (base * ratio ^ k) ≤ pyround (base * ratio ^ m) := by
    intro k m hkm
    exact pyround_mono
      (mul_le_mul_of_nonneg_left (pow_le_pow_right₀ hr.le hkm) hb.le)
  exact ⟨step 2 3 (by omega), step 1 2 (by omega), step 0 1 (by omega)⟩

/-- C5 witness: the amended ordering at base 12, ratio 5/4. -/
theorem c5_witness :
    (0 : ℚ) < 12 ∧ (1 : ℚ) < 5 / 4 ∧
    (size_for 12 (5 / 4) 2 ≤ size_for 12 (5 / 4) 1 ∧
     size_for 12 (5 / 4) 3 ≤ size_for 12 (5 / 4) 2 ∧
     size_for 12 (5 / 4) 4 ≤ size_for 12 (5 / 4) 3) :=
  ⟨by norm_num, by norm_num, c5_size_for_monotone 12 (5 / 4) (by norm_num) (by norm_num)⟩

/-! ## C2: the indent re-scan -/

/-- C2: evaluating `auto_indent_bodies` on the spec's level sequence
[H1, Body, Body, H2, Body].  The source (line 604) looks up
`INDENT_MAP[str(prev_header_level + 1)]`, so the two Body blocks after H1
get margins (10,10) and the Body after H2 gets (20,20) — not the
(0,0)/(10,10) of the claim and of the source's own comment
"Indent body to match its header's indent". -/
theorem c2_code_eval :
    (auto_indent_bodies
        [plainBlock (some .h1), plainBlock (some .body), plainBlock (some .body),
         plainBlock (some .h2), plainBlock (some .body)]).map
      (fun b => (b.leftMargin, b.rightMargin)) =
      [(0, 0), (10, 10), (10, 10), (0, 0), (20, 20)] := by decide

/-! ## C3: link application and removal -/

/-- C3 counterexample: the claim that removing a link restores the
underline/foreground snapshotted when it was applied fails: removal
(lines 670-674) unconditionally writes underline := False and the palette
text brush, so a run that was underlined before the link loses its
underline (`non_link_underline`/`non_link_fg` from lines 418-419 are never
consulted). -/
theorem c3_counterexample :
    ¬ (∀ (ctx : LinkCtx) (url : List Char) (f : CharFmt),
        (remove_link_fmt ctx (apply_link_fmt ctx url f)).underline = f.underline ∧
        (remove_link_fmt ctx (apply_link_fmt ctx url f)).fg = f.fg) := by
  intro h
  have h1 := (h ⟨['a'], ['p']⟩ []
    ⟨false, false, true, false, [], ['p'], false, [], 0⟩).1
  simp [remove_link_fmt, apply_link_fmt] at h1

/-- C3 (amended): removing a link always sets underline := false and the
palette's default text foreground (the values captured at initialisation),
regardless of the values at link-application time; the prior values are
therefore restored exactly when they were already false/default. -/
theorem c3_remove_restores_defaults (ctx : LinkCtx) (url : List Char)
    (f : CharFmt) (hu : f.underline = false) (hfg : f.fg = ctx.paletteText) :
    (remove_link_fmt ctx (apply_link_fmt ctx url f)).underline = f.underline ∧
    (remove_link_fmt ctx (apply_link_fmt ctx url f)).fg = f.fg := by
  simp [remove_link_fmt, apply_link_fmt, hu, hfg]

/-- C3 witness: the amended restore property at a concrete
non-underlined, default-coloured run. -/
theorem c3_witness :
    (⟨true, false, false, false, [], ['p'], false, [], 12⟩ : CharFmt).underline
        = false ∧
    (⟨true, false, false, false, [], ['p'], false, [], 12⟩ : CharFmt).fg
        = (⟨['a'], ['p']⟩ : LinkCtx).paletteText ∧
    ((remove_link_fmt ⟨['a'], ['p']⟩
        (apply_link_fmt ⟨['a'], ['p']⟩ ['u']
          ⟨true, false, false, false, [], ['p'], false, [], 12⟩)).underline
      = (⟨true, false, false, false, [], ['p'], false, [], 12⟩ : CharFmt).underline ∧
     (remove_link_fmt ⟨['a'], ['p']⟩
        (apply_link_fmt ⟨['a'], ['p']⟩ ['u']
          ⟨true, false, false, false, [], ['p'], false, [], 12⟩)).fg
      = (⟨true, false, false, false, [], ['p'], false, [], 12⟩ : CharFmt).fg) :=
  ⟨rfl, rfl, c3_remove_restores_defaults ⟨['a'], ['p']⟩ ['u'] _ rfl rfl⟩

/-! ## C6: heading continuation -/

/-- C6: pressing Return immediately after an H1/H2/H3 block forces the new
block's property 1001 to `"4"` (Body) and sets its block character format
to the Body point size: the new block never keeps the inherited heading
level or heading size. -/
theorem c6_heading_continuation (base ratio : ℚ) (prev : Option Lvl)
    (nb : BlockCtx)
    (h : prev = some .h1 ∨ prev = some .h2 ∨ prev = some .h3) :
    (keyPressEvent_return base ratio prev nb).p1001 = some .body ∧
    (keyPressEvent_return base ratio prev nb).charSize = size_for base ratio 4 := by
  unfold keyPressEvent_return
  rw [if_pos h]
  exact ⟨rfl, rfl⟩

/-- C6 witness: after an H2 block (a new block that inherited the H2 level
and size), the result is a Body block at the Body size. -/
theorem c6_witness :
    (some Lvl.h2 = some Lvl.h1 ∨ some Lvl.h2 = some Lvl.h2 ∨
      some Lvl.h2 = some Lvl.h3) ∧
    ((keyPressEvent_return 12 (5 / 4) (some .h2)
        ⟨some .h2, 10, 10, 19⟩).p1001 = some .body ∧
     (keyPressEvent_return 12 (5 / 4) (some .h2)
        ⟨some .h2, 10, 10, 19⟩).charSize = size_for 12 (5 / 4) 4) :=
  ⟨by decide, c6_heading_continuation 12 (5 / 4) (some .h2)
    ⟨some .h2, 10, 10, 19⟩ (by decide)⟩

/-! ## C8: empty URL submission -/

/-- C8: submitting an all-whitespace (hence empty after `strip`) URL while
link mode is requested is a no-op: no character-format attribute is
touched, the button stays checked with an empty pending URL (the state is
still awaiting a URL), and no error is raised (the function is total). -/
theorem c8_empty_url_noop (ctx : LinkCtx) (st : LinkState) (text : List Char)
    (hstrip : pystrip text = []) (hchecked : st.btnChecked = true) :
    (on_link_entered ctx st text).curFmt = st.curFmt ∧
    (on_link_entered ctx st text).btnChecked = true ∧
    (on_link_entered ctx st text).pendingUrl = [] := by
  unfold on_link_entered apply_or_remove_link
  simp [hstrip, hchecked]

/-- C8 witness: submitting `" "` while the link button is checked. -/
theorem c8_witness :
    pystrip [' '] = [] ∧
    ((⟨['u'], true, true, defaultCharFmt⟩ : LinkState).btnChecked = true) ∧
    ((on_link_entered ⟨['a'], ['p']⟩ ⟨['u'], true, true, defaultCharFmt⟩
        [' ']).curFmt = (⟨['u'], true, true, defaultCharFmt⟩ : LinkState).curFmt ∧
     (on_link_entered ⟨['a'], ['p']⟩ ⟨['u'], true, true, defaultCharFmt⟩
        [' ']).btnChecked = true ∧
     (on_link_entered ⟨['a'], ['p']⟩ ⟨['u'], true, true, defaultCharFmt⟩
        [' ']).pendingUrl = []) :=
  ⟨by decide, rfl, c8_empty_url_noop ⟨['a'], ['p']⟩ _ [' '] (by decide) rfl⟩

/-! ## C9: rename -/

/-- C9: a rename appends `".grnt"` when the entered name lacks it, and
when a file already exists at the resulting target path `setData` returns
`False` with the file system (in particular the target file) unchanged. -/
theorem c9_rename_conflict (fs : FS) (old_path value : List Char)
    (hex : fsExists fs (joinPath (dirname old_path) (setData_new_name value))
      = true) :
    endsWithGrntLower (setData_new_name value) = true ∧
    setData fs old_path value = (false, fs) := by
  constructor
  · unfold setData_new_name
    split_ifs with h
    · exact h
    · unfold endsWithGrntLower lowerChars
      rw [List.map_append]
      rw [List.isSuffixOf_iff_suffix]
      have hsuf : grntSuffix.map Char.toLower = grntSuffix := by decide
      rw [hsuf]
      exact List.suffix_append _ _
  · simp only [setData]
    by_cases h1 :
        lowerChars (joinPath (dirname old_path) (setData_new_name value)) =
          lowerChars old_path
    · rw [if_pos h1]
    · rw [if_neg h1, if_pos hex]

/-- C9 witness: renaming `/d/a.grnt` to `b` while `/d/b.grnt` exists. -/
theorem c9_witness :
    fsExists [(['/', 'd', '/', 'b', '.', 'g', 'r', 'n', 't'], ['z'])]
      (joinPath (dirname ['/', 'd', '/', 'a', '.', 'g', 'r', 'n', 't'])
        (setData_new_name ['b'])) = true ∧
    (endsWithGrntLower (setData_new_name ['b']) = true ∧
     setData [(['/', 'd', '/', 'b', '.', 'g', 'r', 'n', 't'], ['z'])]
        ['/', 'd', '/', 'a', '.', 'g', 'r', 'n', 't'] ['b'] =
       (false, [(['/', 'd', '/', 'b', '.', 'g', 'r', 'n', 't'], ['z'])])) :=
  ⟨by decide, c9_rename_conflict _ _ _ (by decide)⟩

/-! ## C10: create_new_file -/

theorem fsLookup_map_replace (fs : FS) (p v : List Char)
    (h : fsExists fs p = true) :
    fsLookup (fs.map (fun kv => if kv.1 == p then (p, v) else kv)) p = some v := by
  induction fs with
  | nil => simp [fsExists] at h
  | cons kv rest ih =>
    by_cases hq : kv.1 = p
    · simp [fsLookup, List.find?, hq]
    · have hq' : (kv.1 == p) = false := by simp [hq]
      have h' : fsExists rest p = true := by
        unfold fsExists at h ⊢
        rw [List.any_cons, hq'] at h
        simpa using h
      rw [List.map_cons, if_neg (by simp [hq'])]
      unfold fsLookup at ih ⊢
      rw [List.find?_cons_of_neg _ (by simp [hq'])]
      exact ih h'

theorem find?_none_of_not_fsExists (fs : FS) (p : List Char)
    (h : fsExists fs p = false) :
    List.find? (fun kv => kv.1 == p) fs = none := by
  induction fs with
  | nil => rfl
  | cons kv rest ih =>
    unfold fsExists at h
    rw [List.any_cons] at h
    rcases Bool.or_eq_false_iff.mp h with ⟨h1, h2⟩
    rw [List.find?_cons_of_neg _ (by simp [h1])]
    exact ih h2

theorem fsLookup_fsInsert (fs : FS) (p v : List Char) :
    fsLookup (fsInsert fs p v) p = some v := by
  unfold fsInsert
  by_cases h : fsExists fs p
  · rw [if_pos h]
    exact fsLookup_map_replace fs p v h
  · rw [if_neg h]
    unfold fsLookup
    rw [List.find?_append,
        find?_none_of_not_fsExists fs p (Bool.not_eq_true _ ▸ eq_false_of_ne_true h)]
    simp [List.find?]

/-- C10: `create_new_file` performs no existence check: when a file
already exists at the target path (toolbar text plus `".grnt"` if absent),
it is silently replaced — truncated to empty when a file is currently
open, or overwritten with the template when none is — and no conflict is
ever signalled (the operation is total and always succeeds). -/
theorem c10_create_truncates (fs : FS) (dir name tmpl old : List Char)
    (cf : Option (List Char))
    (h : fsLookup fs (create_target dir name) = some old) :
    fsLookup (create_new_file fs dir name cf tmpl) (create_target dir name) =
      some (if cf = none then tmpl else []) := by
  unfold create_new_file
  split_ifs with hcf
  · simp [hcf, fsLookup_fsInsert]
  · simp [hcf, fsLookup_fsInsert]

/-! ## Triple-colon lemmas (for C7 and C1) -/

theorem hasC3_cons (c : Char) (s : List Char) :
    hasC3 (c :: s) = ((c == ':' && s.take 2 == [':', ':']) || hasC3 s) := rfl

theorem hasC3_cons_ne {c : Char} (s : List Char) (hc : c ≠ ':') :
    hasC3 (c :: s) = hasC3 s := by
  rw [hasC3_cons, beq_eq_false_iff_ne.mpr hc, Bool.false_and, Bool.false_or]

theorem hasC3_colon_cons {c : Char} (s : List Char) (hc : c ≠ ':') :
    hasC3 (':' :: c :: s) = hasC3 (c :: s) := by
  rw [hasC3_cons]
  have h2 : ((c :: s).take 2 == [':', ':']) = false := by
    apply beq_eq_false_iff_ne.mpr
    intro heq
    rw [show List.take 2 (c :: s) = c :: List.take 1 s from rfl] at heq
    exact hc (List.cons_eq_cons.mp heq).1
  rw [h2, Bool.and_false, Bool.false_or]

theorem hasC3_false_of_all_ne (s : List Char) (h : ∀ c ∈ s, c ≠ ':') :
    hasC3 s = false := by
  induction s with
  | nil => rfl
  | cons c rest ih =>
    rw [hasC3_cons, beq_eq_false_iff_ne.mpr (h c (by simp)), Bool.false_and,
        Bool.false_or]
    exact ih fun x hx => h x (by simp [hx])

theorem hasC3_tail {c : Char} {s : List Char} (h : hasC3 (c :: s) = false) :
    hasC3 s = false := (Bool.or_eq_false_iff.mp (hasC3_cons c s ▸ h)).2

theorem hasC3_append_right (a b : List Char) (ha : hasC3 a = false)
    (hb : hasC3 b = false) (hl : ∀ c, a.getLast? = some c → c ≠ ':') :
    hasC3 (a ++ b) = false := by
  induction a with
  | nil => simpa using hb
  | cons c a' ih =>
    rw [List.cons_append]
    have hcond : (c == ':' && ((a' ++ b).take 2 == [':', ':'])) = false := by
      by_cases hc : c = ':'
      · subst hc
        rcases a' with _ | ⟨x, a''⟩
        · exact absurd rfl (hl ':' (by simp))
        · rcases a'' with _ | ⟨y, t⟩
          · have hx : x ≠ ':' := hl x (by simp)
            simp [List.take_cons, beq_eq_false_iff_ne.mpr hx]
          · have h1 := (Bool.or_eq_false_iff.mp (hasC3_cons ':' (x :: y :: t) ▸ ha)).1
            rw [Bool.and_eq_false_iff] at h1
            rcases h1 with h1 | h1
            · simp at h1
            · have : ((x :: y :: t).take 2 : List Char) = [x, y] := rfl
              rw [this] at h1
              have : ((x :: y :: (t ++ b)).take 2 : List Char) = [x, y] := rfl
              rw [List.cons_append, List.cons_append, this, h1, Bool.and_false]
      · rw [beq_eq_false_iff_ne.mpr hc, Bool.false_and]
    rw [hasC3_cons, hcond, Bool.false_or]
    refine ih (hasC3_tail ha) ?_
    intro x hx
    rcases a' with _ | ⟨z, a''⟩
    · simp at hx
    · exact hl x (by rw [List.getLast?_cons_cons]; exact hx)

theorem hasC3_append_left (a b : List Char) (ha : hasC3 a = false)
    (hb : hasC3 b = false) (hhd : ∀ c, b.head? = some c → c ≠ ':') :
    hasC3 (a ++ b) = false := by
  induction a with
  | nil => simpa using hb
  | cons c a' ih =>
    rw [List.cons_append]
    have hcond : (c == ':' && ((a' ++ b).take 2 == [':', ':'])) = false := by
      by_cases hc : c = ':'
      · subst hc
        rw [Bool.and_eq_false_iff]
        right
        apply beq_eq_false_iff_ne.mpr
        rcases a' with _ | ⟨x, a''⟩
        · rcases b with _ | ⟨d, b'⟩
          · simp
          · intro heq
            rw [List.nil_append,
              show List.take 2 (d :: b') = d :: List.take 1 b' from rfl] at heq
            exact hhd d rfl (List.cons_eq_cons.mp heq).1
        · rcases a'' with _ | ⟨y, t⟩
          · rcases b with _ | ⟨d, b'⟩
            · intro heq
              simp at heq
            · intro heq
              have e2 : ((x :: ([] ++ d :: b')).take 2 : List Char) = [x, d] := rfl
              rw [List.cons_append, e2] at heq
              have hd' : d = ':' := (List.cons_eq_cons.mp
                (List.cons_eq_cons.mp heq).2).1
              exact hhd d rfl hd'
          · have h1 := (Bool.or_eq_false_iff.mp (hasC3_cons ':' (x :: y :: t) ▸ ha)).1
            rw [Bool.and_eq_false_iff] at h1
            rcases h1 with h1 | h1
            · simp at h1
            · intro heq
              have e2 : ((x :: y :: (t ++ b)).take 2 : List Char) = [x, y] := rfl
              rw [List.cons_append, List.cons_append, e2] at heq
              rw [show ((x :: y :: t).take 2 : List Char) = [x, y] from rfl, heq]
                at h1
              simp at h1
      · rw [beq_eq_false_iff_ne.mpr hc, Bool.false_and]
    rw [hasC3_cons, hcond, Bool.false_or]
    exact ih (hasC3_tail ha)

theorem hasC3_append_all_ne (a b : List Char) (ha : ∀ c ∈ a, c ≠ ':')
    (hb : hasC3 b = false) : hasC3 (a ++ b) = false :=
  hasC3_append_right a b (hasC3_false_of_all_ne a ha) hb
    (fun c hc => ha c (List.mem_of_getLast?_eq_some hc))

/-- The split on the first `":::"` recovers the parts exactly, provided the
header contains no `":::"` and does not end in a colon. -/
theorem splitC3_append (h body : List Char) (hh : hasC3 h = false)
    (hl : ∀ c, h.getLast? = some c → c ≠ ':') :
    splitC3 (h ++ sepC3 ++ body) = some (h, body) := by
  rw [List.append_assoc]
  show splitC3 (h ++ (':' :: ':' :: ':' :: body)) = some (h, body)
  induction h with
  | nil => simp [splitC3]
  | cons c h' ih =>
    rw [List.cons_append]
    have hcond :
        (c == ':' && ((h' ++ (':' :: ':' :: ':' :: body)).take 2 == [':', ':']))
          = false ∨
        (c == ':') = false := by
      by_cases hc : c = ':'
      · left
        subst hc
        rcases h' with _ | ⟨x, h''⟩
        · exact absurd rfl (hl ':' (by simp))
        · rcases h'' with _ | ⟨y, t⟩
          · have hx : x ≠ ':' := hl x (by simp)
            simp [List.take_cons, beq_eq_false_iff_ne.mpr hx]
          · have h1 := (Bool.or_eq_false_iff.mp (hasC3_cons ':' (x :: y :: t) ▸ hh)).1
            rw [Bool.and_eq_false_iff] at h1
            rcases h1 with h1 | h1
            · simp at h1
            · rw [show ((x :: y :: t).take 2 : List Char) = [x, y] from rfl] at h1
              rw [List.cons_append, List.cons_append,
                show ((x :: y :: (t ++ (':' :: ':' :: ':' :: body))).take 2 :
                  List Char) = [x, y] from rfl, h1, Bool.and_false]
      · right
        exact beq_eq_false_iff_ne.mpr hc
    have hcond' :
        (c == ':' && ((h' ++ (':' :: ':' :: ':' :: body)).take 2 == [':', ':']))
          = false := by
      rcases hcond with h | h
      · exact h
      · rw [h, Bool.false_and]
    rw [splitC3, if_neg (by rw [hcond']; exact Bool.false_ne_true)]
    have ih' := ih (hasC3_tail hh) ?_
    · rw [ih']
    · intro x hx
      rcases h' with _ | ⟨z, h''⟩
      · simp at hx
      · exact hl x (by rw [List.getLast?_cons_cons]; exact hx)

/-! ## Digit and escape character facts -/

theorem digitChar_isDig (d : Nat) : isDig (digitChar d) = true := by
  unfold digitChar
  split <;> decide

theorem natCharsAux_digits (fuel : Nat) :
    ∀ n, ∀ c ∈ natCharsAux fuel n, isDig c = true := by
  induction fuel with
  | zero => intro n c hc; simp [natCharsAux] at hc
  | succ f ih =>
    intro n c hc
    unfold natCharsAux at hc
    split_ifs at hc with h
    · simp at hc
    · rcases List.mem_append.mp hc with hc | hc
      · exact ih _ c hc
      · simp at hc
        rw [hc]
        exact digitChar_isDig _

theorem natChars_digits (n : Nat) : ∀ c ∈ natChars n, isDig c = true := by
  intro c hc
  unfold natChars at hc
  split_ifs at hc with h
  · simp at hc
    rw [hc]
    decide
  · exact natCharsAux_digits n n c hc

theorem isDig_ne_colon {c : Char} (h : isDig c = true) : c ≠ ':' := by
  intro hc
  subst hc
  exact absurd h (by decide)

theorem natChars_ne_colon (n : Nat) : ∀ c ∈ natChars n, c ≠ ':' :=
  fun c hc => isDig_ne_colon (natChars_digits n c hc)

theorem intChars_ne_colon (i : Int) : ∀ c ∈ intChars i, c ≠ ':' := by
  intro c hc
  unfold intChars at hc
  split_ifs at hc with h
  · rcases List.mem_cons.mp hc with hc | hc
    · rw [hc]; decide
    · exact natChars_ne_colon _ c hc
  · exact natChars_ne_colon _ c hc

theorem finChar_ne_colon (d : Fin 10) : finChar d ≠ ':' :=
  isDig_ne_colon (digitChar_isDig d.val)

theorem decChars_ne_colon (d : DecLit) : ∀ c ∈ decChars d, c ≠ ':' := by
  intro c hc
  unfold decChars at hc
  rcases List.mem_append.mp hc with hc | hc
  · rcases List.mem_append.mp hc with hc | hc
    · rcases List.mem_append.mp hc with hc | hc
      · split_ifs at hc
        · simp at hc; rw [hc]; decide
        · simp at hc
      · exact natChars_ne_colon _ c hc
    · split_ifs at hc with hfr
      · simp at hc
      · rcases List.mem_cons.mp hc with hc | hc
        · rw [hc]; decide
        · rcases List.mem_map.mp hc with ⟨x, -, hx⟩
          rw [← hx]
          exact finChar_ne_colon x
  · rcases hex : d.exp with - | p
    · rw [hex] at hc; simp at hc
    · rw [hex] at hc
      rcases List.mem_cons.mp hc with hc | hc
      · rw [hc]; decide
      · rcases List.mem_append.mp hc with hc | hc
        · split_ifs at hc <;> simp at hc <;> rw [hc] <;> decide
        · exact natChars_ne_colon _ c hc

theorem hexChar_ne_colon (n : Nat) : hexChar n ≠ ':' := by
  unfold hexChar
  split <;> decide

theorem escChar_colon : escChar ':' = [':'] := by decide

/-- Case enumeration of `escChar` (its if-chain, spelled out). -/
theorem escChar_eq_cases (c : Char) :
    escChar c = ['\\', '"'] ∨ escChar c = ['\\', '\\'] ∨
    escChar c = ['\\', 'n'] ∨ escChar c = ['\\', 't'] ∨
    escChar c = ['\\', 'r'] ∨ escChar c = ['\\', 'b'] ∨
    escChar c = ['\\', 'f'] ∨
    escChar c =
      ['\\', 'u', '0', '0', hexChar (c.toNat / 16), hexChar (c.toNat % 16)] ∨
    escChar c = [c] ∨
    escChar c =
      ['\\', 'u', hexChar (c.toNat / 4096 % 16), hexChar (c.toNat / 256 % 16),
       hexChar (c.toNat / 16 % 16), hexChar (c.toNat % 16)] ∨
    escChar c =
      ['\\', 'u', hexChar ((55296 + (c.toNat - 65536) / 1024) / 4096 % 16),
       hexChar ((55296 + (c.toNat - 65536) / 1024) / 256 % 16),
       hexChar ((55296 + (c.toNat - 65536) / 1024) / 16 % 16),
       hexChar ((55296 + (c.toNat - 65536) / 1024) % 16),
       '\\', 'u', hexChar ((56320 + (c.toNat - 65536) % 1024) / 4096 % 16),
       hexChar ((56320 + (c.toNat - 65536) % 1024) / 256 % 16),
       hexChar ((56320 + (c.toNat - 65536) % 1024) / 16 % 16),
       hexChar ((56320 + (c.toNat - 65536) % 1024) % 16)] := by
  unfold escChar
  by_cases h1 : c = '"'
  · rw [if_pos h1]; exact Or.inl rfl
  rw [if_neg h1]
  by_cases h2 : c = '\\'
  · rw [if_pos h2]; exact Or.inr (Or.inl rfl)
  rw [if_neg h2]
  by_cases h3 : c = '\n'
  · rw [if_pos h3]; exact Or.inr (Or.inr (Or.inl rfl))
  rw [if_neg h3]
  by_cases h4 : c = '\t'
  · rw [if_pos h4]; exact Or.inr (Or.inr (Or.inr (Or.inl rfl)))
  rw [if_neg h4]
  by_cases h5 : c.toNat = 13
  · rw [if_pos h5]; exact Or.inr (Or.inr (Or.inr (Or.inr (Or.inl rfl))))
  rw [if_neg h5]
  by_cases h6 : c.toNat = 8
  · rw [if_pos h6]
    exact Or.inr (Or.inr (Or.inr (Or.inr (Or.inr (Or.inl rfl)))))
  rw [if_neg h6]
  by_cases h7 : c.toNat = 12
  · rw [if_pos h7]
    exact Or.inr (Or.inr (Or.inr (Or.inr (Or.inr (Or.inr (Or.inl rfl))))))
  rw [if_neg h7]
  by_cases h8 : c.toNat < 32
  · rw [if_pos h8]
    exact Or.inr (Or.inr (Or.inr (Or.inr (Or.inr (Or.inr (Or.inr (Or.inl rfl)))))))
  rw [if_neg h8]
  by_cases h9 : c.toNat < 127
  · rw [if_pos h9]
    exact Or.inr (Or.inr (Or.inr (Or.inr (Or.inr (Or.inr (Or.inr (Or.inr
      (Or.inl rfl))))))))
  rw [if_neg h9]
  by_cases h10 : c.toNat < 65536
  · rw [if_pos h10]
    exact Or.inr (Or.inr (Or.inr (Or.inr (Or.inr (Or.inr (Or.inr (Or.inr
      (Or.inr (Or.inl rfl)))))))))
  rw [if_neg h10]
  exact Or.inr (Or.inr (Or.inr (Or.inr (Or.inr (Or.inr (Or.inr (Or.inr
    (Or.inr (Or.inr rfl)))))))))

theorem escChar_ne_nil (c : Char) : escChar c ≠ [] := by
  rcases escChar_eq_cases c with h | h | h | h | h | h | h | h | h | h | h <;>
    (rw [h]; simp)

theorem mem_pair_ne_colon {x a b : Char} (ha : a ≠ ':') (hb : b ≠ ':')
    (hx : x ∈ [a, b]) : x ≠ ':' := by
  rcases List.mem_cons.mp hx with rfl | hx
  · exact ha
  rcases List.mem_cons.mp hx with rfl | hx
  · exact hb
  simp at hx

theorem mem_u2hex_ne_colon {x : Char} {a b : Nat}
    (hx : x ∈ ['\\', 'u', '0', '0', hexChar a, hexChar b]) : x ≠ ':' := by
  rcases List.mem_cons.mp hx with rfl | hx
  · decide
  rcases List.mem_cons.mp hx with rfl | hx
  · decide
  rcases List.mem_cons.mp hx with rfl | hx
  · decide
  rcases List.mem_cons.mp hx with rfl | hx
  · decide
  rcases List.mem_cons.mp hx with rfl | hx
  · exact hexChar_ne_colon a
  rcases List.mem_cons.mp hx with rfl | hx
  · exact hexChar_ne_colon b
  simp at hx

theorem mem_u4hex_ne_colon {x : Char} {a b c d : Nat}
    (hx : x ∈ ['\\', 'u', hexChar a, hexChar b, hexChar c, hexChar d]) :
    x ≠ ':' := by
  rcases List.mem_cons.mp hx with rfl | hx
  · decide
  rcases List.mem_cons.mp hx with rfl | hx
  · decide
  rcases List.mem_cons.mp hx with rfl | hx
  · exact hexChar_ne_colon a
  rcases List.mem_cons.mp hx with rfl | hx
  · exact hexChar_ne_colon b
  rcases List.mem_cons.mp hx with rfl | hx
  · exact hexChar_ne_colon c
  rcases List.mem_cons.mp hx with rfl | hx
  · exact hexChar_ne_colon d
  simp at hx

theorem mem_u8hex_ne_colon {x : Char} {a b c d e f g h : Nat}
    (hx : x ∈ ['\\', 'u', hexChar a, hexChar b, hexChar c, hexChar d,
      '\\', 'u', hexChar e, hexChar f, hexChar g, hexChar h]) : x ≠ ':' := by
  rcases List.mem_cons.mp hx with rfl | hx
  · decide
  rcases List.mem_cons.mp hx with rfl | hx
  · decide
  rcases List.mem_cons.mp hx with rfl | hx
  · exact hexChar_ne_colon a
  rcases List.mem_cons.mp hx with rfl | hx
  · exact hexChar_ne_colon b
  rcases List.mem_cons.mp hx with rfl | hx
  · exact hexChar_ne_colon c
  rcases List.mem_cons.mp hx with rfl | hx
  · exact hexChar_ne_colon d
  exact mem_u4hex_ne_colon hx

theorem escChar_all_ne_colon {c : Char} (hc : c ≠ ':') :
    ∀ x ∈ escChar c, x ≠ ':' := by
  intro x hx
  rcases escChar_eq_cases c with h | h | h | h | h | h | h | h | h | h | h
  all_goals rw [h] at hx
  · exact mem_pair_ne_colon (by decide) (by decide) hx
  · exact mem_pair_ne_colon (by decide) (by decide) hx
  · exact mem_pair_ne_colon (by decide) (by decide) hx
  · exact mem_pair_ne_colon (by decide) (by decide) hx
  · exact mem_pair_ne_colon (by decide) (by decide) hx
  · exact mem_pair_ne_colon (by decide) (by decide) hx
  · exact mem_pair_ne_colon (by decide) (by decide) hx
  · exact mem_u2hex_ne_colon hx
  · rw [List.mem_singleton] at hx
    rw [hx]
    exact hc
  · exact mem_u4hex_ne_colon hx
  · exact mem_u8hex_ne_colon hx

theorem escString_cons (c : Char) (t : List Char) :
    escString (c :: t) = escChar c ++ escString t := rfl

theorem escString_head_colon {s : List Char}
    (h : (escString s).head? = some ':') : s.head? = some ':' := by
  cases s with
  | nil => simp [escString] at h
  | cons c t =>
    by_cases hc : c = ':'
    · simp [hc]
    · exfalso
      rw [escString_cons] at h
      rcases he : escChar c with - | ⟨x, xs⟩
      · exact escChar_ne_nil c he
      · rw [he] at h
        simp at h
        exact escChar_all_ne_colon hc x (he ▸ List.mem_cons_self x xs) h

theorem escString_head_colon_aux {u : List Char}
    (h : (escString u).take 1 = [':']) : (escString u).head? = some ':' := by
  cases hu : escString u with
  | nil => rw [hu] at h; simp at h
  | cons x xs =>
    rw [hu, show (x :: xs).take 1 = [x] from rfl] at h
    rw [List.head?_cons, (List.cons_eq_cons.mp h).1]

theorem escString_take2_colons {s : List Char}
    (h : (escString s).take 2 = [':', ':']) : s.take 2 = [':', ':'] := by
  have hhd : (escString s).head? = some ':' := by
    cases hs : escString s with
    | nil => rw [hs] at h; simp at h
    | cons x xs =>
      rw [hs, show (x :: xs).take 2 = x :: xs.take 1 from rfl] at h
      rw [List.head?_cons, (List.cons_eq_cons.mp h).1]
  have h1 := escString_head_colon hhd
  cases s with
  | nil => simp at h1
  | cons c t =>
    rw [List.head?_cons] at h1
    have hc : c = ':' := by
      have := h1
      simp at this
      exact this
    subst hc
    rw [escString_cons, escChar_colon, List.singleton_append,
      show (':' :: escString t).take 2 = ':' :: (escString t).take 1 from rfl]
      at h
    have h2 : (escString t).take 1 = [':'] := (List.cons_eq_cons.mp h).2
    have h3 := escString_head_colon (escString_head_colon_aux h2)
    cases t with
    | nil => simp at h3
    | cons u t' =>
      rw [List.head?_cons] at h3
      have hu : u = ':' := by
        have := h3
        simp at this
        exact this
      subst hu
      rfl

theorem escString_hasC3 {s : List Char} (hs : hasC3 s = false) :
    hasC3 (escString s) = false := by
  induction s with
  | nil => rfl
  | cons c t ih =>
    have htail := hasC3_tail hs
    by_cases hc : c = ':'
    · subst hc
      rw [escString_cons, escChar_colon, List.singleton_append, hasC3_cons]
      have h1 := (Bool.or_eq_false_iff.mp (hasC3_cons ':' t ▸ hs)).1
      rw [Bool.and_eq_false_iff] at h1
      rcases h1 with h1 | h1
      · simp at h1
      · have h2 : ((escString t).take 2 == [':', ':']) = false := by
          apply beq_eq_false_iff_ne.mpr
          intro he
          exact absurd (escString_take2_colons he) (beq_eq_false_iff_ne.mp h1)
        rw [h2, Bool.and_false, Bool.false_or]
        exact ih htail
    · rw [escString_cons]
      exact hasC3_append_all_ne _ _ (escChar_all_ne_colon hc) (ih htail)

/-! ## The JSON header is free of `":::"` -/

theorem lastNe_of_all_ne {s : List Char} (h : ∀ c ∈ s, c ≠ ':') :
    ∀ c, s.getLast? = some c → c ≠ ':' :=
  fun c hc => h c (List.mem_of_getLast?_eq_some hc)

theorem printJson_obj_getLast (kvs : List (List Char × Json)) :
    (printJson (.obj kvs)).getLast? = some '}' := by
  show ('{' :: (printMembs kvs ++ ['}'])).getLast? = some '}'
  rw [← List.cons_append, List.getLast?_concat]

theorem printJson_arr_getLast (xs : List Json) :
    (printJson (.arr xs)).getLast? = some ']' := by
  show ('[' :: (printElems xs ++ [']'])).getLast? = some ']'
  rw [← List.cons_append, List.getLast?_concat]

theorem printJson_str_getLast (s : List Char) :
    (printJson (.str s)).getLast? = some '"' := by
  show ('"' :: (escString s ++ ['"'])).getLast? = some '"'
  rw [← List.cons_append, List.getLast?_concat]

theorem printJson_str_hasC3 {s : List Char} (h : hasC3 s = false) :
    hasC3 (printJson (.str s)) = false := by
  show hasC3 ('"' :: (escString s ++ ['"'])) = false
  rw [hasC3_cons_ne _ (by decide)]
  refine hasC3_append_left _ _ (escString_hasC3 h) (by decide) ?_
  intro c hc
  simp at hc
  rw [← hc]
  decide

theorem printJson_int_hasC3 (n : Int) : hasC3 (printJson (.int n)) = false :=
  hasC3_false_of_all_ne _ (intChars_ne_colon n)

theorem printJson_dec_hasC3 (d : DecLit) : hasC3 (printJson (.dec d)) = false :=
  hasC3_false_of_all_ne _ (decChars_ne_colon d)

theorem printMembs_hasC3 (kvs : List (List Char × Json))
    (h : ∀ kv ∈ kvs, hasC3 (escString kv.1) = false ∧ PrintSafe kv.2) :
    hasC3 (printMembs kvs) = false := by
  induction kvs with
  | nil => rfl
  | cons kv rest ih =>
    rcases kv with ⟨k, v⟩
    obtain ⟨hk, hv, hvl⟩ := h (k, v) (by simp)
    rcases rest with - | ⟨m, ms⟩
    · show hasC3 ('"' :: (escString k ++ ('"' :: ':' :: ' ' :: printJson v)))
        = false
      rw [hasC3_cons_ne _ (by decide)]
      refine hasC3_append_left _ _ hk ?_ ?_
      · rw [hasC3_cons_ne _ (by decide), hasC3_colon_cons _ (by decide),
          hasC3_cons_ne _ (by decide)]
        exact hv
      · intro c hc
        simp at hc
        rw [← hc]
        decide
    · show hasC3 ('"' :: ((escString k ++ ('"' :: ':' :: ' ' :: printJson v)) ++
        (',' :: ' ' :: printMembs (m :: ms)))) = false
      rw [hasC3_cons_ne _ (by decide), List.append_assoc]
      refine hasC3_append_left _ _ hk ?_ ?_
      · rw [List.cons_append, List.cons_append, List.cons_append,
          hasC3_cons_ne _ (by decide), hasC3_colon_cons _ (by decide),
          hasC3_cons_ne _ (by decide)]
        refine hasC3_append_right _ _ hv ?_ hvl
        rw [hasC3_cons_ne _ (by decide), hasC3_cons_ne _ (by decide)]
        exact ih fun x hx => h x (by simp [hx])
      · intro c hc
        simp at hc
        rw [← hc]
        decide

theorem printElems_hasC3 (xs : List Json) (h : ∀ x ∈ xs, PrintSafe x) :
    hasC3 (printElems xs) = false := by
  induction xs with
  | nil => rfl
  | cons x rest ih =>
    obtain ⟨hx, hxl⟩ := h x (by simp)
    rcases rest with - | ⟨y, ys⟩
    · exact hx
    · show hasC3 (printJson x ++ (',' :: ' ' :: printElems (y :: ys))) = false
      refine hasC3_append_right _ _ hx ?_ hxl
      rw [hasC3_cons_ne _ (by decide), hasC3_cons_ne _ (by decide)]
      exact ih fun z hz => h z (by simp [hz])

theorem printJson_arr_hasC3 (xs : List Json) (h : ∀ x ∈ xs, PrintSafe x) :
    hasC3 (printJson (.arr xs)) = false := by
  show hasC3 ('[' :: (printElems xs ++ [']'])) = false
  rw [hasC3_cons_ne _ (by decide)]
  refine hasC3_append_left _ _ (printElems_hasC3 xs h) (by decide) ?_
  intro c hc
  simp at hc
  rw [← hc]
  decide

theorem printJson_obj_hasC3 (kvs : List (List Char × Json))
    (h : ∀ kv ∈ kvs, hasC3 (escString kv.1) = false ∧ PrintSafe kv.2) :
    hasC3 (printJson (.obj kvs)) = false := by
  show hasC3 ('{' :: (printMembs kvs ++ ['}'])) = false
  rw [hasC3_cons_ne _ (by decide)]
  refine hasC3_append_left _ _ (printMembs_hasC3 kvs h) (by decide) ?_
  intro c hc
  simp at hc
  rw [← hc]
  decide

theorem printSafe_int (n : Int) : PrintSafe (.int n) :=
  ⟨printJson_int_hasC3 n, lastNe_of_all_ne (intChars_ne_colon n)⟩

theorem printSafe_dec (d : DecLit) : PrintSafe (.dec d) :=
  ⟨printJson_dec_hasC3 d, lastNe_of_all_ne (decChars_ne_colon d)⟩

theorem printSafe_str {s : List Char} (h : hasC3 s = false) :
    PrintSafe (.str s) := by
  refine ⟨printJson_str_hasC3 h, ?_⟩
  intro c hc
  rw [printJson_str_getLast] at hc
  simp at hc
  rw [← hc]
  decide

theorem printSafe_null : PrintSafe .null := by
  constructor
  · decide
  · intro c hc
    simp [printJson] at hc
    rw [← hc]
    decide

theorem bstateJson_printSafe (b : BState) : PrintSafe (bstateJson b) := by
  constructor
  · refine printJson_obj_hasC3 _ ?_
    intro kv hkv
    simp [bstateJson] at hkv
    rcases hkv with hkv | hkv | hkv
    all_goals rw [hkv]
    · exact ⟨(by decide : hasC3 (escString keyPos) = false), printSafe_int _⟩
    · exact ⟨(by decide : hasC3 (escString keyUserState) = false),
        printSafe_int _⟩
    · refine ⟨(by decide : hasC3 (escString key1001) = false), ?_⟩
      rcases hp : b.p1001 with - | l
      · exact printSafe_null
      · rcases l <;> exact printSafe_str (by decide)
  · intro c hc
    rw [show bstateJson b = .obj [(keyPos, .int b.pos),
        (keyUserState, .int b.userState),
        (key1001, match b.p1001 with
          | some l => .str l.chars
          | none => .null)] from rfl, printJson_obj_getLast] at hc
    simp at hc
    rw [← hc]
    decide

theorem settingsJson_hasC3 (S : Settings) (bs : List BState)
    (hacc : hasC3 S.accent_color = false) :
    hasC3 (printJson (settingsJson S bs)) = false := by
  refine printJson_obj_hasC3 _ ?_
  intro kv hkv
  simp [settingsJson] at hkv
  rcases hkv with hkv | hkv | hkv | hkv
  all_goals rw [hkv]
  · exact ⟨(by decide : hasC3 (escString keyScaleBase) = false),
      printSafe_int _⟩
  · exact ⟨(by decide : hasC3 (escString keyScaleRatio) = false),
      printSafe_dec _⟩
  · exact ⟨(by decide : hasC3 (escString keyAccentColor) = false),
      printSafe_str hacc⟩
  · refine ⟨(by decide : hasC3 (escString keyBlockStates) = false), ?_, ?_⟩
    · refine printJson_arr_hasC3 _ ?_
      intro x hx
      rcases List.mem_map.mp hx with ⟨b, -, hb⟩
      rw [← hb]
      exact bstateJson_printSafe b
    · intro c hc
      rw [printJson_arr_getLast] at hc
      simp at hc
      rw [← hc]
      decide

theorem settingsJson_getLast (S : Settings) (bs : List BState) :
    (printJson (settingsJson S bs)).getLast? = some '}' :=
  printJson_obj_getLast _

/-! ## C7: the separator contract -/

/-- C7 counterexample: `json.dumps` does not escape colons, so a settings
value whose accent colour is the string `":::"` produces a JSON header
containing `":::"`, refuting the claim that the header can never contain
the separator. -/
theorem c7_counterexample :
    ¬ (∀ (S : Settings) (d : Doc),
        hasC3 (printJson (settingsJson S (blocksData d 0))) = false) := by
  intro h
  exact absurd (h exSettingsColon []) (by decide)

/-- C7 (amended): for every settings value whose accent colour does not
itself contain `":::"` (and every document), the JSON header contains no
occurrence of `":::"`, and the load-time split on the first `":::"`
recovers exactly the full header and the markup body. -/
theorem c7_separator_roundtrip (S : Settings) (d : Doc)
    (hacc : hasC3 S.accent_color = false) :
    hasC3 (printJson (settingsJson S (blocksData d 0))) = false ∧
    splitC3 (save S d) =
      some (printJson (settingsJson S (blocksData d 0)), qt_toHtml d) := by
  refine ⟨settingsJson_hasC3 S _ hacc, ?_⟩
  show splitC3 (printJson (settingsJson S (blocksData d 0)) ++ sepC3 ++
    qt_toHtml d) = _
  refine splitC3_append _ _ (settingsJson_hasC3 S _ hacc) ?_
  intro c hc
  rw [settingsJson_getLast] at hc
  simp at hc
  rw [← hc]
  decide

/-- C7 witness: the amended separator contract at the concrete default
settings and the empty document. -/
theorem c7_witness :
    hasC3 exSettings.accent_color = false ∧
    (hasC3 (printJson (settingsJson exSettings (blocksData [] 0))) = false ∧
     splitC3 (save exSettings []) =
       some (printJson (settingsJson exSettings (blocksData [] 0)),
         qt_toHtml [])) :=
  ⟨by decide, c7_separator_roundtrip exSettings [] (by decide)⟩

/-- C10 witness: creating `n` over an existing `d/n.grnt` with a file open
leaves the target empty. -/
theorem c10_witness :
    fsLookup [(['d', '/', 'n', '.', 'g', 'r', 'n', 't'], ['z'])]
      (create_target ['d'] ['n']) = some ['z'] ∧
    fsLookup
        (create_new_file [(['d', '/', 'n', '.', 'g', 'r', 'n', 't'], ['z'])]
          ['d'] ['n'] (some ['f']) ['t'])
        (create_target ['d'] ['n']) =
      some (if (some ['f'] : Option (List Char)) = none then ['t'] else []) :=
  ⟨by decide, c10_create_truncates _ _ _ _ ['z'] _ (by decide)⟩

/-! ## Decimal printing and parsing round-trips -/

theorem digVal_digitChar {d : Nat} (h : d < 10) : digVal (digitChar d) = d := by
  interval_cases d <;> decide

theorem digsVal_append (a : List Char) (c : Char) :
    digsVal (a ++ [c]) = 10 * digsVal a + digVal c := by
  unfold digsVal
  rw [List.foldl_append]
  rfl

theorem natCharsAux_val (fuel : Nat) :
    ∀ n, n ≤ fuel → digsVal (natCharsAux fuel n) = n := by
  induction fuel with
  | zero =>
    intro n hn
    interval_cases n
    rfl
  | succ f ih =>
    intro n hn
    unfold natCharsAux
    split_ifs with h
    · rw [h]; rfl
    · rw [digsVal_append, ih (n / 10) (by omega), digVal_digitChar (by omega)]
      omega

theorem natChars_val (n : Nat) : digsVal (natChars n) = n := by
  unfold natChars
  split_ifs with h
  · rw [h]; rfl
  · exact natCharsAux_val n n le_rfl

theorem natCharsAux_ne_nil (fuel n : Nat) (h0 : 0 < n) (hf : 0 < fuel) :
    natCharsAux fuel n ≠ [] := by
  cases fuel with
  | zero => omega
  | succ f =>
    unfold natCharsAux
    rw [if_neg (by omega)]
    simp

theorem natChars_ne_nil (n : Nat) : natChars n ≠ [] := by
  unfold natChars
  split_ifs with h
  · simp
  · exact natCharsAux_ne_nil n n (by omega) (by omega)

theorem natCharsAux_head_ne_zero (fuel : Nat) :
    ∀ n, 0 < n → n ≤ fuel →
      ∀ c, (natCharsAux fuel n).head? = some c → c ≠ '0' := by
  induction fuel with
  | zero => intro n h0 hf; omega
  | succ f ih =>
    intro n h0 hf c hc
    unfold natCharsAux at hc
    rw [if_neg (by omega)] at hc
    by_cases hq : n / 10 = 0
    · have hfa : natCharsAux f (n / 10) = [] := by
        cases f with
        | zero => rfl
        | succ f' =>
          unfold natCharsAux
          rw [if_pos hq]
      rw [hfa, List.nil_append, List.head?_cons] at hc
      have h1 : 0 < n % 10 := by omega
      have h2 : n % 10 < 10 := by omega
      have hcd : c = digitChar (n % 10) := by simpa using hc.symm
      rw [hcd]
      have h3 := h1
      interval_cases hm : (n % 10) <;> decide
    · have hne := natCharsAux_ne_nil f (n / 10) (by omega) (by omega)
      rcases ha : natCharsAux f (n / 10) with - | ⟨x, xs⟩
      · exact absurd ha hne
      · rw [ha, List.cons_append, List.head?_cons] at hc
        have hx : c = x := by
          have := hc
          simp at this
          exact this.symm
        rw [hx]
        exact ih (n / 10) (by omega) (by omega) x (by rw [ha]; rfl)

theorem takeWhile_digits_append (ds rest : List Char)
    (hds : ∀ c ∈ ds, isDig c = true)
    (hrest : ∀ c, rest.head? = some c → isDig c = false) :
    (ds ++ rest).takeWhile isDig = ds := by
  induction ds with
  | nil =>
    cases rest with
    | nil => rfl
    | cons r t =>
      rw [List.nil_append, List.takeWhile_cons, hrest r rfl]
      simp
  | cons d t ih =>
    rw [List.cons_append, List.takeWhile_cons, hds d (by simp)]
    simp only [if_pos rfl]
    rw [ih fun c hc => hds c (by simp [hc])]
    simp

theorem dropWhile_digits_append (ds rest : List Char)
    (hds : ∀ c ∈ ds, isDig c = true)
    (hrest : ∀ c, rest.head? = some c → isDig c = false) :
    (ds ++ rest).dropWhile isDig = rest := by
  induction ds with
  | nil =>
    cases rest with
    | nil => rfl
    | cons r t =>
      rw [List.nil_append, List.dropWhile_cons, hrest r rfl]
      simp
  | cons d t ih =>
    rw [List.cons_append, List.dropWhile_cons, hds d (by simp)]
    simp only [if_true]
    exact ih fun c hc => hds c (by simp [hc])

theorem spanDigits_append (ds rest : List Char)
    (hds : ∀ c ∈ ds, isDig c = true)
    (hrest : ∀ c, rest.head? = some c → isDig c = false) :
    spanDigits (ds ++ rest) = (ds, rest) := by
  unfold spanDigits
  rw [takeWhile_digits_append ds rest hds hrest,
      dropWhile_digits_append ds rest hds hrest]

theorem natChars_head_ne_zero (n : Nat) (h0 : n ≠ 0) :
    ∀ c, (natChars n).head? = some c → c ≠ '0' := by
  intro c hc
  unfold natChars at hc
  rw [if_neg h0] at hc
  exact natCharsAux_head_ne_zero n n (by omega) le_rfl c hc

theorem parseIntDigits_natChars (n : Nat) (rest : List Char)
    (hrest : ∀ c, rest.head? = some c → isDig c = false) :
    parseIntDigits (natChars n ++ rest) = some (natChars n, rest) := by
  by_cases h0 : n = 0
  · rw [h0]
    rfl
  · rcases hn : natChars n with - | ⟨d, t⟩
    · exact absurd hn (natChars_ne_nil n)
    · have hd : isDig d = true := natChars_digits n d (by rw [hn]; simp)
      have hdz : d ≠ '0' := natChars_head_ne_zero n h0 d (by rw [hn]; rfl)
      have hts : ∀ c ∈ t, isDig c = true := by
        intro c hc
        exact natChars_digits n c (by rw [hn]; simp [hc])
      show (if d = '0' then some (['0'], t ++ rest)
            else if isDig d = true then
              some (d :: (spanDigits (t ++ rest)).1, (spanDigits (t ++ rest)).2)
            else none) = some (d :: t, rest)
      rw [if_neg hdz]
      simp only [hd, if_true]
      rw [show spanDigits (t ++ rest) = (t, rest) from
        spanDigits_append t rest hts hrest]

/-! ## Round-trip of the modelled markup codec -/

theorem parseNatTag_natTag (n : Nat) (rest : List Char) :
    parseNatTag (natTag n ++ rest) = some (n, rest) := by
  obtain ⟨d, t, hn⟩ : ∃ d t, natChars n = d :: t := by
    rcases h : natChars n with - | ⟨d, t⟩
    · exact absurd h (natChars_ne_nil n)
    · exact ⟨d, t, rfl⟩
  have hspan : spanDigits (natChars n ++ ('#' :: rest)) =
      (natChars n, '#' :: rest) := by
    refine spanDigits_append _ _ (natChars_digits n) ?_
    intro c hc
    rw [List.head?_cons] at hc
    have : c = '#' := by
      have := hc
      simp at this
      exact this.symm
    rw [this]
    decide
  rw [show natTag n ++ rest = natChars n ++ ('#' :: rest) by
    unfold natTag
    rw [List.append_assoc, List.singleton_append]]
  unfold parseNatTag
  rw [hspan, hn]
  show some (digsVal (d :: t), rest) = some (n, rest)
  rw [← hn, natChars_val]

theorem parseIntTag_intTag (i : Int) (rest : List Char) :
    parseIntTag (intTag i ++ rest) = some (i, rest) := by
  by_cases h : i < 0
  · rw [show intTag i ++ rest = '-' :: (natTag i.natAbs ++ rest) by
      unfold intTag intChars natTag
      rw [if_pos h]
      simp [List.append_assoc]]
    show Option.map (fun p => (-(p.1 : Int), p.2))
      (parseNatTag (natTag i.natAbs ++ rest)) = some (i, rest)
    rw [parseNatTag_natTag]
    show some (-(i.natAbs : Int), rest) = some (i, rest)
    have : -(i.natAbs : Int) = i := by omega
    rw [this]
  · obtain ⟨d, t, hn⟩ : ∃ d t, natChars i.toNat = d :: t := by
      rcases hx : natChars i.toNat with - | ⟨d, t⟩
      · exact absurd hx (natChars_ne_nil _)
      · exact ⟨d, t, rfl⟩
    have hd : isDig d = true := natChars_digits _ d (by rw [hn]; simp)
    have hdm : d ≠ '-' := by
      intro hcon
      rw [hcon] at hd
      exact absurd hd (by decide)
    rw [show intTag i ++ rest = natTag i.toNat ++ rest by
      unfold intTag intChars natTag
      rw [if_neg h]]
    have hshape : natTag i.toNat ++ rest = d :: (t ++ ('#' :: rest)) := by
      unfold natTag
      rw [List.append_assoc, List.singleton_append, hn, List.cons_append]
    rw [hshape]
    show (if d = '-' then
        Option.map (fun p => (-(p.1 : Int), p.2))
          (parseNatTag (t ++ ('#' :: rest)))
      else
        Option.map (fun p => ((p.1 : Int), p.2))
          (parseNatTag (d :: (t ++ ('#' :: rest))))) = some (i, rest)
    rw [if_neg hdm, ← List.cons_append, ← hn,
      show natChars i.toNat ++ ('#' :: rest) = natTag i.toNat ++ rest by
        unfold natTag
        rw [List.append_assoc, List.singleton_append],
      parseNatTag_natTag]
    show some ((i.toNat : Int), rest) = some (i, rest)
    have : (i.toNat : Int) = i := by omega
    rw [this]

theorem parseStrTag_strTag (s rest : List Char) :
    parseStrTag (strTag s ++ rest) = some (s, rest) := by
  unfold strTag parseStrTag
  rw [List.append_assoc, parseNatTag_natTag]
  have hle : s.length ≤ (s ++ rest).length := by
    rw [List.length_append]
    omega
  simp only [Option.bind_eq_bind, Option.some_bind, hle, if_pos]
  rw [List.take_left, List.drop_left]

theorem parseBoolCh_boolCh (b : Bool) (rest : List Char) :
    parseBoolCh (boolCh b ++ rest) = some (b, rest) := by
  cases b <;> rfl

theorem parseAlignCh_alignCh (a : Align) (rest : List Char) :
    parseAlignCh (alignCh a ++ rest) = some (a, rest) := by
  cases a <;> rfl

theorem parseListTag_listTag (m : Option (ListStyle × Nat)) (rest : List Char) :
    parseListTag (listTag m ++ rest) = some (m, rest) := by
  rcases m with - | ⟨st, g⟩
  · rfl
  · cases st
    · show parseListTag ('b' :: (natTag g ++ rest)) = _
      show Option.map (fun p => (some (ListStyle.disc, p.1), p.2))
        (parseNatTag (natTag g ++ rest)) = _
      rw [parseNatTag_natTag]
      rfl
    · show parseListTag ('d' :: (natTag g ++ rest)) = _
      show Option.map (fun p => (some (ListStyle.decimal, p.1), p.2))
        (parseNatTag (natTag g ++ rest)) = _
      rw [parseNatTag_natTag]
      rfl

theorem parseRun_encRun (r : Run) (rest : List Char) :
    parseRun (encRun r ++ rest) = some (r, rest) := by
  unfold encRun parseRun
  simp only [List.append_assoc]
  simp only [parseBoolCh_boolCh, parseStrTag_strTag, parseIntTag_intTag,
    Option.bind_eq_bind, Option.some_bind]
  rfl

theorem parseRuns_encRuns (rs : List Run) (rest : List Char) :
    parseRuns rs.length (encRuns rs ++ rest) = some (rs, rest) := by
  induction rs with
  | nil => rfl
  | cons r t ih =>
    show parseRuns (t.length + 1) ((encRun r ++ encRuns t) ++ rest) = _
    unfold parseRuns
    rw [List.append_assoc, parseRun_encRun]
    simp only [Option.bind_eq_bind, Option.some_bind]
    rw [ih]
    rfl

theorem parseBlock_encBlockVis (b : Block) (rest : List Char) :
    parseBlock (encBlockVis b ++ rest) = some (stripBlockState b, rest) := by
  unfold encBlockVis parseBlock
  simp only [List.append_assoc]
  simp only [parseAlignCh_alignCh, parseListTag_listTag, parseIntTag_intTag,
    parseNatTag_natTag, Option.bind_eq_bind, Option.some_bind]
  rw [parseRuns_encRuns]
  rfl

theorem parseHtmlBlocks_encBlocks (d : Doc) (rest : List Char) :
    parseHtmlBlocks d.length (encBlocks d ++ rest) =
      some (d.map stripBlockState, rest) := by
  induction d with
  | nil => rfl
  | cons b t ih =>
    show parseHtmlBlocks (t.length + 1) ((encBlockVis b ++ encBlocks t) ++ rest)
      = _
    unfold parseHtmlBlocks
    rw [List.append_assoc, parseBlock_encBlockVis]
    simp only [Option.bind_eq_bind, Option.some_bind]
    rw [ih]
    rfl

theorem qt_setHtml_toHtml (d : Doc) :
    qt_setHtml (qt_toHtml d) = d.map stripBlockState := by
  unfold qt_setHtml qt_toHtml
  rw [parseNatTag_natTag]
  simp only [Option.bind_eq_bind, Option.some_bind]
  rw [show encBlocks d = encBlocks d ++ [] from (List.append_nil _).symm,
    parseHtmlBlocks_encBlocks]
  rfl

/-! ## The JSON parser on printed output, and the C1/C4 round-trips -/


theorem hexVal_hexChar (d : Nat) (h : d < 16) : hexVal (hexChar d) = some d := by
  interval_cases d <;> decide

theorem hex4_hexChars (x y z w : Nat) (hx : x < 16) (hy : y < 16) (hz : z < 16)
    (hw : w < 16) :
    hex4 (hexChar x) (hexChar y) (hexChar z) (hexChar w) =
      some (4096 * x + 256 * y + 16 * z + w) := by
  unfold hex4
  rw [hexVal_hexChar _ hx, hexVal_hexChar _ hy, hexVal_hexChar _ hz,
    hexVal_hexChar _ hw]
  rfl

theorem psb_quote (rest : List Char) : psb ('"' :: rest) = some ([], rest) := by
  rw [psb.eq_2, if_pos rfl]

theorem psb_plain (c : Char) (rest : List Char) (h1 : c ≠ '"') (h2 : c ≠ '\\')
    (h3 : ¬ c.toNat < 32) :
    psb (c :: rest) = (psb rest).map (fun p => (c :: p.1, p.2)) := by
  rw [psb.eq_2, if_neg h1, if_neg h2, if_neg h3]

theorem psb_esc (e ch : Char) (rest : List Char) (he : e ≠ 'u')
    (hd : escDecode e = some ch) :
    psb ('\\' :: e :: rest) = (psb rest).map (fun p => (ch :: p.1, p.2)) := by
  rw [psb.eq_2, if_neg (by decide : ¬ ('\\' : Char) = '"'), if_pos rfl,
    psbEsc.eq_2, if_neg he, hd]

theorem psb_u_basic (a b c2 d : Char) (rest : List Char) (n : Nat)
    (hx : hex4 a b c2 d = some n)
    (h1 : ¬ (55296 ≤ n ∧ n < 56320)) (h2 : ¬ (56320 ≤ n ∧ n < 57344)) :
    psb ('\\' :: 'u' :: a :: b :: c2 :: d :: rest) =
      (psb rest).map (fun p => (Char.ofNat n :: p.1, p.2)) := by
  rw [psb.eq_2, if_neg (by decide : ¬ ('\\' : Char) = '"'), if_pos rfl,
    psbEsc.eq_2, if_pos rfl, psbU.eq_1, hx]
  show (if 55296 ≤ n ∧ n < 56320 then psbLo n rest
        else if 56320 ≤ n ∧ n < 57344 then none
        else (psb rest).map (fun p => (Char.ofNat n :: p.1, p.2))) = _
  rw [if_neg h1, if_neg h2]

theorem psb_u_pair (a b c2 d a2 b2 c3 d2 : Char) (rest : List Char) (n m : Nat)
    (hx1 : hex4 a b c2 d = some n) (hn : 55296 ≤ n ∧ n < 56320)
    (hx2 : hex4 a2 b2 c3 d2 = some m) (hm : 56320 ≤ m ∧ m < 57344) :
    psb ('\\' :: 'u' :: a :: b :: c2 :: d ::
         '\\' :: 'u' :: a2 :: b2 :: c3 :: d2 :: rest) =
      (psb rest).map
        (fun p =>
          (Char.ofNat (65536 + 1024 * (n - 55296) + (m - 56320)) :: p.1,
            p.2)) := by
  rw [psb.eq_2, if_neg (by decide : ¬ ('\\' : Char) = '"'), if_pos rfl,
    psbEsc.eq_2, if_pos rfl, psbU.eq_1, hx1]
  show (if 55296 ≤ n ∧ n < 56320 then
          psbLo n ('\\' :: 'u' :: a2 :: b2 :: c3 :: d2 :: rest)
        else if 56320 ≤ n ∧ n < 57344 then none
        else _) = _
  rw [if_pos hn, psbLo.eq_1, if_pos ⟨rfl, rfl⟩, hx2]
  show (if 56320 ≤ m ∧ m < 57344 then
          (psb rest).map
            (fun p =>
              (Char.ofNat (65536 + 1024 * (n - 55296) + (m - 56320)) :: p.1,
                p.2))
        else none) = _
  rw [if_pos hm]

theorem char_toNat_valid (c : Char) :
    c.toNat < 55296 ∨ (57343 < c.toNat ∧ c.toNat < 1114112) := by
  have hv := c.valid
  rcases hv with hv | ⟨hv1, hv2⟩
  · left
    exact hv
  · right
    exact ⟨hv1, hv2⟩

theorem escChar_sup_eq (c : Char) (h1 : ¬ c = '"') (h2 : ¬ c = '\\')
    (h3 : ¬ c = '\n') (h4 : ¬ c = '\t') (h5 : ¬ c.toNat = 13)
    (h6 : ¬ c.toNat = 8) (h7 : ¬ c.toNat = 12) (h8 : ¬ c.toNat < 32)
    (h9 : ¬ c.toNat < 127) (h10 : ¬ c.toNat < 65536) :
    escChar c =
        ['\\', 'u', hexChar ((55296 + (c.toNat - 65536) / 1024) / 4096 % 16),
         hexChar ((55296 + (c.toNat - 65536) / 1024) / 256 % 16),
         hexChar ((55296 + (c.toNat - 65536) / 1024) / 16 % 16),
         hexChar ((55296 + (c.toNat - 65536) / 1024) % 16),
         '\\', 'u', hexChar ((56320 + (c.toNat - 65536) % 1024) / 4096 % 16),
         hexChar ((56320 + (c.toNat - 65536) % 1024) / 256 % 16),
         hexChar ((56320 + (c.toNat - 65536) % 1024) / 16 % 16),
         hexChar ((56320 + (c.toNat - 65536) % 1024) % 16)] := by
  unfold escChar
  rw [if_neg h1, if_neg h2, if_neg h3, if_neg h4, if_neg h5, if_neg h6,
    if_neg h7, if_neg h8, if_neg h9, if_neg h10]

theorem psb_escChar_sup (c : Char) (rest : List Char) (h10 : ¬ c.toNat < 65536)
    (hupper : c.toNat < 1114112)
    (hesc : escChar c =
        ['\\', 'u', hexChar ((55296 + (c.toNat - 65536) / 1024) / 4096 % 16),
         hexChar ((55296 + (c.toNat - 65536) / 1024) / 256 % 16),
         hexChar ((55296 + (c.toNat - 65536) / 1024) / 16 % 16),
         hexChar ((55296 + (c.toNat - 65536) / 1024) % 16),
         '\\', 'u', hexChar ((56320 + (c.toNat - 65536) % 1024) / 4096 % 16),
         hexChar ((56320 + (c.toNat - 65536) % 1024) / 256 % 16),
         hexChar ((56320 + (c.toNat - 65536) % 1024) / 16 % 16),
         hexChar ((56320 + (c.toNat - 65536) % 1024) % 16)]) :
    psb (escChar c ++ rest) = (psb rest).map (fun p => (c :: p.1, p.2)) := by
  have hx1 : hex4 (hexChar ((55296 + (c.toNat - 65536) / 1024) / 4096 % 16))
      (hexChar ((55296 + (c.toNat - 65536) / 1024) / 256 % 16))
      (hexChar ((55296 + (c.toNat - 65536) / 1024) / 16 % 16))
      (hexChar ((55296 + (c.toNat - 65536) / 1024) % 16)) =
      some (55296 + (c.toNat - 65536) / 1024) := by
    rw [hex4_hexChars _ _ _ _ (by omega) (by omega) (by omega) (by omega)]
    refine congrArg some ?_
    omega
  have hx2 : hex4 (hexChar ((56320 + (c.toNat - 65536) % 1024) / 4096 % 16))
      (hexChar ((56320 + (c.toNat - 65536) % 1024) / 256 % 16))
      (hexChar ((56320 + (c.toNat - 65536) % 1024) / 16 % 16))
      (hexChar ((56320 + (c.toNat - 65536) % 1024) % 16)) =
      some (56320 + (c.toNat - 65536) % 1024) := by
    rw [hex4_hexChars _ _ _ _ (by omega) (by omega) (by omega) (by omega)]
    refine congrArg some ?_
    omega
  rw [hesc, List.cons_append, List.cons_append, List.cons_append,
    List.cons_append, List.cons_append, List.cons_append, List.cons_append,
    List.cons_append, List.cons_append, List.cons_append, List.cons_append,
    List.cons_append, List.nil_append,
    psb_u_pair _ _ _ _ _ _ _ _ _ _ _ hx1 (by omega) hx2 (by omega)]
  have harg : 65536 + 1024 * (55296 + (c.toNat - 65536) / 1024 - 55296) +
      (56320 + (c.toNat - 65536) % 1024 - 56320) = c.toNat := by
    omega
  rw [harg, Char.ofNat_toNat]

theorem psb_escChar (c : Char) (rest : List Char) :
    psb (escChar c ++ rest) = (psb rest).map (fun p => (c :: p.1, p.2)) := by
  by_cases h1 : c = '"'
  · subst h1
    exact psb_esc '"' '"' rest (by decide) (by decide)
  by_cases h2 : c = '\\'
  · subst h2
    exact psb_esc '\\' '\\' rest (by decide) (by decide)
  by_cases h3 : c = '\n'
  · subst h3
    exact psb_esc 'n' '\n' rest (by decide) (by decide)
  by_cases h4 : c = '\t'
  · subst h4
    exact psb_esc 't' '\t' rest (by decide) (by decide)
  by_cases h5 : c.toNat = 13
  · have hc : c = Char.ofNat 13 := by rw [← h5, Char.ofNat_toNat]
    subst hc
    exact psb_esc 'r' (Char.ofNat 13) rest (by decide) (by decide)
  by_cases h6 : c.toNat = 8
  · have hc : c = Char.ofNat 8 := by rw [← h6, Char.ofNat_toNat]
    subst hc
    exact psb_esc 'b' (Char.ofNat 8) rest (by decide) (by decide)
  by_cases h7 : c.toNat = 12
  · have hc : c = Char.ofNat 12 := by rw [← h7, Char.ofNat_toNat]
    subst hc
    exact psb_esc 'f' (Char.ofNat 12) rest (by decide) (by decide)
  by_cases h8 : c.toNat < 32
  · have hesc : escChar c =
        ['\\', 'u', '0', '0', hexChar (c.toNat / 16), hexChar (c.toNat % 16)] := by
      unfold escChar
      rw [if_neg h1, if_neg h2, if_neg h3, if_neg h4, if_neg h5, if_neg h6,
        if_neg h7, if_pos h8]
    rw [hesc]
    have hx : hex4 '0' '0' (hexChar (c.toNat / 16)) (hexChar (c.toNat % 16)) =
        some c.toNat := by
      have e0 : hexVal '0' = some 0 := by decide
      unfold hex4
      rw [e0, hexVal_hexChar _ (by omega), hexVal_hexChar _ (by omega)]
      show some (4096 * 0 + 256 * 0 + 16 * (c.toNat / 16) + c.toNat % 16) =
        some (c.toNat)
      refine congrArg some ?_
      omega
    rw [show ('\\' :: 'u' :: '0' :: '0' :: hexChar (c.toNat / 16) ::
          hexChar (c.toNat % 16) :: []) ++ rest =
        '\\' :: 'u' :: '0' :: '0' :: hexChar (c.toNat / 16) ::
          hexChar (c.toNat % 16) :: rest from rfl,
      psb_u_basic _ _ _ _ _ _ hx (by omega) (by omega), Char.ofNat_toNat]
  by_cases h9 : c.toNat < 127
  · have hesc : escChar c = [c] := by
      unfold escChar
      rw [if_neg h1, if_neg h2, if_neg h3, if_neg h4, if_neg h5, if_neg h6,
        if_neg h7, if_neg h8, if_pos h9]
    rw [hesc]
    exact psb_plain c rest h1 h2 h8
  by_cases h10 : c.toNat < 65536
  · have hval := char_toNat_valid c
    have hesc : escChar c =
        ['\\', 'u', hexChar (c.toNat / 4096 % 16), hexChar (c.toNat / 256 % 16),
         hexChar (c.toNat / 16 % 16), hexChar (c.toNat % 16)] := by
      unfold escChar
      rw [if_neg h1, if_neg h2, if_neg h3, if_neg h4, if_neg h5, if_neg h6,
        if_neg h7, if_neg h8, if_neg h9, if_pos h10]
    rw [hesc]
    have hx : hex4 (hexChar (c.toNat / 4096 % 16)) (hexChar (c.toNat / 256 % 16))
        (hexChar (c.toNat / 16 % 16)) (hexChar (c.toNat % 16)) =
        some c.toNat := by
      rw [hex4_hexChars _ _ _ _ (by omega) (by omega) (by omega) (by omega)]
      refine congrArg some ?_
      omega
    rw [show ('\\' :: 'u' :: hexChar (c.toNat / 4096 % 16) ::
          hexChar (c.toNat / 256 % 16) :: hexChar (c.toNat / 16 % 16) ::
          hexChar (c.toNat % 16) :: []) ++ rest =
        '\\' :: 'u' :: hexChar (c.toNat / 4096 % 16) ::
          hexChar (c.toNat / 256 % 16) :: hexChar (c.toNat / 16 % 16) ::
          hexChar (c.toNat % 16) :: rest from rfl,
      psb_u_basic _ _ _ _ _ _ hx (by omega) (by omega), Char.ofNat_toNat]
  · have hval := char_toNat_valid c
    exact psb_escChar_sup c rest h10 (by omega)
      (escChar_sup_eq c h1 h2 h3 h4 h5 h6 h7 h8 h9 h10)

theorem psb_escString (s rest : List Char) :
    psb (escString s ++ '"' :: rest) = some (s, rest) := by
  induction s with
  | nil =>
    show psb ('"' :: rest) = some ([], rest)
    exact psb_quote rest
  | cons c t ih =>
    show psb ((escChar c ++ escString t) ++ '"' :: rest) = some (c :: t, rest)
    rw [List.append_assoc, psb_escChar, ih]
    rfl

theorem numBoundary_nil : numBoundary [] := by
  intro c hc
  simp at hc

theorem numBoundary_cons (c : Char) (t : List Char)
    (h : isDig c = false ∧ c ≠ '.' ∧ c ≠ 'e' ∧ c ≠ 'E') :
    numBoundary (c :: t) := by
  intro x hx
  simp at hx
  rw [← hx]
  exact h

theorem skipWs_nws (c : Char) (t : List Char)
    (h : (c == ' ' || c == '\t' || c == '\n' || c == '\u000d') = false) :
    skipWs (c :: t) = c :: t := by
  unfold skipWs
  rw [List.dropWhile_cons, h]
  rfl

theorem skipWs_space (t : List Char) : skipWs (' ' :: t) = skipWs t := by
  unfold skipWs
  rw [List.dropWhile_cons]
  rfl

theorem charFin_finChar (x : Fin 10) : charFin (finChar x) = x := by
  unfold charFin finChar
  have hd : digVal (digitChar x.val) = x.val := digVal_digitChar x.isLt
  apply Fin.ext
  show digVal (digitChar x.val) % 10 = x.val
  rw [hd]
  exact Nat.mod_eq_of_lt x.isLt

theorem parseFracPart_boundary (rest : List Char) (hb : numBoundary rest) :
    parseFracPart rest = (none, rest) := by
  rcases rest with - | ⟨c, t⟩
  · rfl
  · obtain ⟨-, hdot, -, -⟩ := hb c (by simp)
    rw [parseFracPart.eq_2, if_neg hdot]

theorem parseExpPart_boundary (rest : List Char) (hb : numBoundary rest) :
    parseExpPart rest = (none, rest) := by
  rcases rest with - | ⟨c, t⟩
  · rfl
  · obtain ⟨-, -, he, hE⟩ := hb c (by simp)
    rw [parseExpPart.eq_2, if_neg (by rintro (h | h) <;> [exact he h; exact hE h])]

theorem parseNumCore_int (neg : Bool) (m : Nat) (rest : List Char)
    (hb : numBoundary rest) :
    parseNumCore neg (natChars m ++ rest) =
      some (.int (if neg then -(m : Int) else (m : Int)), rest) := by
  unfold parseNumCore
  rw [parseIntDigits_natChars m rest (fun c hc => (hb c hc).1)]
  simp only [parseFracPart_boundary rest hb, parseExpPart_boundary rest hb]
  rw [natChars_val]

theorem parseNum_nat (m : Nat) (rest2 : List Char) :
    parseNum (natChars m ++ rest2) = parseNumCore false (natChars m ++ rest2) := by
  obtain ⟨d0, t0, hm⟩ : ∃ d t, natChars m = d :: t := by
    rcases h : natChars m with - | ⟨d, t⟩
    · exact absurd h (natChars_ne_nil m)
    · exact ⟨d, t, rfl⟩
  have hd : isDig d0 = true := natChars_digits m d0 (by rw [hm]; simp)
  have hdm : d0 ≠ '-' := by
    intro hcon
    rw [hcon] at hd
    exact absurd hd (by decide)
  rw [hm, List.cons_append, parseNum.eq_2, if_neg hdm]

theorem parseNum_intChars (n : Int) (rest : List Char) (hb : numBoundary rest) :
    parseNum (intChars n ++ rest) = some (.int n, rest) := by
  by_cases hn : n < 0
  · rw [show intChars n ++ rest = '-' :: (natChars n.natAbs ++ rest) by
      unfold intChars
      rw [if_pos hn]
      rfl]
    rw [parseNum.eq_2, if_pos rfl, parseNumCore_int true n.natAbs rest hb]
    show some (Json.int (-(n.natAbs : Int)), rest) = some (Json.int n, rest)
    have : -(n.natAbs : Int) = n := by omega
    rw [this]
  · rw [show intChars n ++ rest = natChars n.toNat ++ rest by
      unfold intChars
      rw [if_neg hn]]
    rw [parseNum_nat, parseNumCore_int false n.toNat rest hb]
    show some (Json.int ((n.toNat : Int)), rest) = some (Json.int n, rest)
    have : ((n.toNat : Int)) = n := by omega
    rw [this]

theorem parseFracPart_frac (x : Fin 10) (xs : List (Fin 10)) (rest : List Char)
    (hb : numBoundary rest) :
    parseFracPart ('.' :: ((x :: xs).map finChar ++ rest)) =
      (some (x :: xs), rest) := by
  rw [parseFracPart.eq_2, if_pos rfl]
  have hdigs : ∀ c ∈ (x :: xs).map finChar, isDig c = true := by
    intro c hc
    simp at hc
    rcases hc with hc | hc
    · rw [hc]
      exact digitChar_isDig _
    · obtain ⟨y, -, hy⟩ := hc
      rw [← hy]
      exact digitChar_isDig _
  have hspan : spanDigits ((x :: xs).map finChar ++ rest) =
      ((x :: xs).map finChar, rest) :=
    spanDigits_append _ _ hdigs (fun c hc => (hb c hc).1)
  rw [hspan]
  show (some (((x :: xs).map finChar).map charFin), rest) = (some (x :: xs), rest)
  rw [List.map_map]
  have : ∀ y : Fin 10, (charFin ∘ finChar) y = y := fun y => charFin_finChar y
  rw [List.map_congr_left (fun y _ => this y)]
  simp

theorem parseNumCore_dec (neg : Bool) (ip : Nat) (x : Fin 10) (xs : List (Fin 10))
    (rest : List Char) (hb : numBoundary rest) :
    parseNumCore neg (natChars ip ++ ('.' :: ((x :: xs).map finChar ++ rest))) =
      some (.dec ⟨neg, ip, x :: xs, none⟩, rest) := by
  unfold parseNumCore
  rw [parseIntDigits_natChars ip _ (by
    intro c hc
    simp at hc
    rw [← hc]
    decide)]
  simp only [parseFracPart_frac x xs rest hb, parseExpPart_boundary rest hb]
  rw [natChars_val]
  rfl

theorem parseNum_decChars (d : DecLit) (hfrac : d.frac ≠ [])
    (hexp : d.exp = none) (rest : List Char) (hb : numBoundary rest) :
    parseNum (decChars d ++ rest) = some (.dec d, rest) := by
  rcases d with ⟨neg, ip, frac, exp⟩
  simp only at hfrac hexp
  subst hexp
  rcases frac with - | ⟨x, xs⟩
  · exact absurd rfl hfrac
  cases neg
  · have hshape : decChars ⟨false, ip, x :: xs, none⟩ ++ rest =
        natChars ip ++ ('.' :: ((x :: xs).map finChar ++ rest)) := by
      simp [decChars, List.append_assoc]
    rw [hshape, parseNum_nat, parseNumCore_dec false ip x xs rest hb]
  · have hshape : decChars ⟨true, ip, x :: xs, none⟩ ++ rest =
        '-' :: (natChars ip ++ ('.' :: ((x :: xs).map finChar ++ rest))) := by
      simp [decChars, List.append_assoc]
    rw [hshape, parseNum.eq_2, if_pos rfl, parseNumCore_dec true ip x xs rest hb]

theorem not_ws_of_ne (d : Char) (h1 : d ≠ ' ') (h2 : d ≠ '\t')
    (h3 : d ≠ '\n') (h4 : d ≠ '\u000d') :
    (d == ' ' || d == '\t' || d == '\n' || d == '\u000d') = false := by
  simp [h1, h2, h3, h4]

theorem ne_of_isDig {d x : Char} (hd : isDig d = true) (hx : isDig x = false) :
    d ≠ x := by
  intro hc
  rw [hc, hx] at hd
  cases hd

theorem isPre_head_ne (a c : Char) (ks rest : List Char) (h : a ≠ c) :
    isPre (a :: ks) (c :: rest) = false := by
  show (if a = c then isPre ks rest else false) = false
  rw [if_neg h]

theorem pj_val_str (f : Nat) (s rest : List Char) :
    pj (f + 1) .jval ('"' :: (escString s ++ '"' :: rest)) =
      some (.str s, rest) := by
  rw [pj.eq_2, skipWs_nws '"' _ (by decide)]
  show (psb (escString s ++ '"' :: rest)).map (fun p => (Json.str p.1, p.2)) =
    some (.str s, rest)
  rw [psb_escString]
  rfl

theorem pj_val_null (f : Nat) (rest : List Char) :
    pj (f + 1) .jval ('n' :: 'u' :: 'l' :: 'l' :: rest) = some (.null, rest) := by
  rw [pj.eq_2, skipWs_nws 'n' _ (by decide)]
  rfl

theorem pj_val_num (f : Nat) (d0 : Char) (t0 : List Char) (hd : isDig d0 = true) :
    pj (f + 1) .jval (d0 :: t0) = parseNum (d0 :: t0) := by
  have hne : ∀ x : Char, isDig x = false → d0 ≠ x := fun x hx => ne_of_isDig hd hx
  have hws : (d0 == ' ' || d0 == '\t' || d0 == '\n' || d0 == '\u000d') = false :=
    not_ws_of_ne d0 (hne ' ' (by decide)) (hne '\t' (by decide))
      (hne '\n' (by decide)) (hne '\u000d' (by decide))
  rw [pj.eq_2, skipWs_nws d0 t0 hws]
  show (if d0 = '{' then _ else _) = _
  rw [if_neg (hne '{' (by decide))]
  show (if d0 = '[' then _ else _) = _
  rw [if_neg (hne '[' (by decide))]
  show (if d0 = '"' then _ else _) = _
  rw [if_neg (hne '"' (by decide))]
  show (if isPre kwTrue (d0 :: t0) = true then _ else _) = _
  rw [if_neg (by
    rw [(show isPre kwTrue (d0 :: t0) = false from
      isPre_head_ne 't' d0 ['r', 'u', 'e'] t0 (hne 't' (by decide)).symm)]
    decide)]
  show (if isPre kwFalse (d0 :: t0) = true then _ else _) = _
  rw [if_neg (by
    rw [(show isPre kwFalse (d0 :: t0) = false from
      isPre_head_ne 'f' d0 ['a', 'l', 's', 'e'] t0 (hne 'f' (by decide)).symm)]
    decide)]
  show (if isPre kwNull (d0 :: t0) = true then _ else _) = _
  rw [if_neg (by
    rw [(show isPre kwNull (d0 :: t0) = false from
      isPre_head_ne 'n' d0 ['u', 'l', 'l'] t0 (hne 'n' (by decide)).symm)]
    decide)]
  show (if isPre kwNaN (d0 :: t0) = true then _ else _) = _
  rw [if_neg (by
    rw [(show isPre kwNaN (d0 :: t0) = false from
      isPre_head_ne 'N' d0 ['a', 'N'] t0 (hne 'N' (by decide)).symm)]
    decide)]
  show (if isPre kwInf (d0 :: t0) = true then _ else _) = _
  rw [if_neg (by
    rw [(show isPre kwInf (d0 :: t0) = false from
      isPre_head_ne 'I' d0 ['n', 'f', 'i', 'n', 'i', 't', 'y'] t0 (hne 'I' (by decide)).symm)]
    decide)]
  show (if isPre kwNegInf (d0 :: t0) = true then _ else _) = _
  rw [if_neg (by
    rw [(show isPre kwNegInf (d0 :: t0) = false from
      isPre_head_ne '-' d0 ['I', 'n', 'f', 'i', 'n', 'i', 't', 'y'] t0 (hne '-' (by decide)).symm)]
    decide)]

theorem pj_val_minus (f : Nat) (x : Char) (t0 : List Char)
    (hx : isDig x = true) :
    pj (f + 1) .jval ('-' :: x :: t0) = parseNum ('-' :: x :: t0) := by
  have hxi : 'I' ≠ x := (ne_of_isDig hx (by decide)).symm
  have hkw : isPre kwNegInf ('-' :: x :: t0) = false := by
    show isPre kwInf (x :: t0) = false
    exact isPre_head_ne 'I' x _ t0 hxi
  rw [pj.eq_2, skipWs_nws '-' _ (by decide)]
  show (if isPre kwNegInf ('-' :: x :: t0) = true then _ else _) = _
  rw [if_neg (by
    rw [hkw]
    decide)]


theorem pj_val_intChars (f : Nat) (n : Int) (rest : List Char)
    (hb : numBoundary rest) :
    pj (f + 1) .jval (intChars n ++ rest) = some (.int n, rest) := by
  by_cases hn : n < 0
  · obtain ⟨d0, t0, hm⟩ : ∃ d t, natChars n.natAbs = d :: t := by
      rcases h : natChars n.natAbs with - | ⟨d, t⟩
      · exact absurd h (natChars_ne_nil _)
      · exact ⟨d, t, rfl⟩
    have hd : isDig d0 = true := natChars_digits _ d0 (by rw [hm]; simp)
    have hshape : intChars n ++ rest = '-' :: d0 :: (t0 ++ rest) := by
      unfold intChars
      rw [if_pos hn, List.cons_append, hm, List.cons_append]
    rw [hshape, pj_val_minus f d0 (t0 ++ rest) hd, ← hshape,
      parseNum_intChars n rest hb]
  · obtain ⟨d0, t0, hm⟩ : ∃ d t, natChars n.toNat = d :: t := by
      rcases h : natChars n.toNat with - | ⟨d, t⟩
      · exact absurd h (natChars_ne_nil _)
      · exact ⟨d, t, rfl⟩
    have hd : isDig d0 = true := natChars_digits _ d0 (by rw [hm]; simp)
    have hshape : intChars n ++ rest = d0 :: (t0 ++ rest) := by
      unfold intChars
      rw [if_neg hn, hm, List.cons_append]
    rw [hshape, pj_val_num f d0 (t0 ++ rest) hd, ← hshape,
      parseNum_intChars n rest hb]

theorem pj_val_decChars (f : Nat) (d : DecLit) (rest : List Char)
    (hfrac : d.frac ≠ []) (hexp : d.exp = none) (hb : numBoundary rest) :
    pj (f + 1) .jval (decChars d ++ rest) = some (.dec d, rest) := by
  obtain ⟨d0, t0, hm⟩ : ∃ a t, natChars d.ip = a :: t := by
    rcases h : natChars d.ip with - | ⟨a, t⟩
    · exact absurd h (natChars_ne_nil _)
    · exact ⟨a, t, rfl⟩
  have hd0 : isDig d0 = true := natChars_digits _ d0 (by rw [hm]; simp)
  have hdec : decChars d =
      (if d.neg then ['-'] else []) ++ (natChars d.ip ++
        ('.' :: d.frac.map finChar)) := by
    unfold decChars
    rw [hexp, if_neg hfrac]
    simp [List.append_assoc]
  cases hneg : d.neg
  · have hshape : decChars d ++ rest = d0 :: (t0 ++ ('.' :: d.frac.map finChar ++ rest)) := by
      rw [hdec, hneg, hm]
      simp [List.append_assoc]
    rw [hshape, pj_val_num f d0 _ hd0, ← hshape, parseNum_decChars d hfrac hexp rest hb]
  · have hshape : decChars d ++ rest = '-' :: d0 :: (t0 ++ ('.' :: d.frac.map finChar ++ rest)) := by
      rw [hdec, hneg, hm]
      simp [List.append_assoc]
    rw [hshape, pj_val_minus f d0 _ hd0, ← hshape, parseNum_decChars d hfrac hexp rest hb]

theorem pj_val_ws (g : Nat) (s0 : List Char) :
    pj (g + 1) .jval (' ' :: s0) = pj (g + 1) .jval s0 := by
  rw [pj.eq_2, pj.eq_2, skipWs_space]

theorem pj_membs_ws (g : Nat) (acc : List (List Char × Json)) (s : List Char) :
    pj (g + 1) (.jmembs acc) (' ' :: s) = pj (g + 1) (.jmembs acc) s := by
  rw [pj.eq_3, pj.eq_3, skipWs_space]

theorem pj_membs_loop (n : Nat) :
    ∀ kvs : List (List Char × Json),
      (∀ kv ∈ kvs, ∀ g : Nat, ∀ rest2 : List Char, n ≤ g →
        numBoundary rest2 →
        pj (g + 1) .jval (printJson kv.2 ++ rest2) = some (kv.2, rest2)) →
      ∀ (f : Nat) (acc : List (List Char × Json)) (rest : List Char),
        kvs ≠ [] → n + kvs.length + 1 ≤ f →
        pj f (.jmembs acc) (printMembs kvs ++ '}' :: rest) =
          some (.obj (acc ++ kvs), rest) := by
  intro kvs
  induction kvs with
  | nil =>
    intro hvals f acc rest hne hf
    exact absurd rfl hne
  | cons kv tl ih =>
    intro hvals f acc rest hne hf
    simp only [List.length_cons] at hf
    rcases kv with ⟨k, v⟩
    obtain ⟨f', rfl⟩ : ∃ f', f = f' + 1 := ⟨f - 1, by omega⟩
    obtain ⟨g, rfl⟩ : ∃ g, f' = g + 1 := ⟨f' - 1, by omega⟩
    have hv := hvals (k, v) (by simp)
    rcases tl with - | ⟨m, ms⟩
    · have hin : printMembs [(k, v)] ++ '}' :: rest =
          '"' :: (escString k ++ '"' ::
            (':' :: ' ' :: (printJson v ++ '}' :: rest))) := by
        show ('"' :: (escString k ++ '"' :: ':' :: ' ' :: printJson v)) ++
          '}' :: rest = _
        simp [List.append_assoc]
      rw [hin, pj.eq_3, skipWs_nws '"' _ (by decide)]
      show (if ('"' : Char) = '"' then _ else _) = _
      rw [if_pos rfl, psb_escString]
      show pjMembKont (pj (g + 1) .jval)
        (fun acc2 => pj (g + 1) (.jmembs acc2)) acc
        (k, ':' :: ' ' :: (printJson v ++ '}' :: rest)) = _
      rw [pjMembKont.eq_1, skipWs_nws ':' _ (by decide)]
      show (if (':' : Char) = ':' then _ else _) = _
      rw [if_pos rfl, pj_val_ws g,
        hv g ('}' :: rest) (by omega) (numBoundary_cons '}' rest (by decide))]
      show pjMembKont2 (fun acc2 => pj (g + 1) (.jmembs acc2)) acc k
        (v, '}' :: rest) = _
      rw [pjMembKont2.eq_1, skipWs_nws '}' _ (by decide)]
      show (if ('}' : Char) = ',' then _ else _) = _
      rw [if_neg (by decide)]
      show (if ('}' : Char) = '}' then _ else _) = _
      rw [if_pos rfl]
    · have hin : printMembs ((k, v) :: m :: ms) ++ '}' :: rest =
          '"' :: (escString k ++ '"' ::
            (':' :: ' ' :: (printJson v ++ ',' :: ' ' ::
              (printMembs (m :: ms) ++ '}' :: rest)))) := by
        show ('"' :: (escString k ++ '"' :: ':' :: ' ' :: printJson v ++
          ',' :: ' ' :: printMembs (m :: ms))) ++ '}' :: rest = _
        simp [List.append_assoc]
      rw [hin, pj.eq_3, skipWs_nws '"' _ (by decide)]
      show (if ('"' : Char) = '"' then _ else _) = _
      rw [if_pos rfl, psb_escString]
      show pjMembKont (pj (g + 1) .jval)
        (fun acc2 => pj (g + 1) (.jmembs acc2)) acc
        (k, ':' :: ' ' :: (printJson v ++ ',' :: ' ' ::
          (printMembs (m :: ms) ++ '}' :: rest))) = _
      rw [pjMembKont.eq_1, skipWs_nws ':' _ (by decide)]
      show (if (':' : Char) = ':' then _ else _) = _
      rw [if_pos rfl, pj_val_ws g,
        hv g (',' :: ' ' :: (printMembs (m :: ms) ++ '}' :: rest)) (by omega)
          (numBoundary_cons ',' _ (by decide))]
      show pjMembKont2 (fun acc2 => pj (g + 1) (.jmembs acc2)) acc k
        (v, ',' :: ' ' :: (printMembs (m :: ms) ++ '}' :: rest)) = _
      rw [pjMembKont2.eq_1, skipWs_nws ',' _ (by decide)]
      show (if (',' : Char) = ',' then _ else _) = _
      rw [if_pos rfl]
      show pj (g + 1) (.jmembs (acc ++ [(k, v)]))
        (' ' :: (printMembs (m :: ms) ++ '}' :: rest)) = _
      rw [pj_membs_ws g,
        ih (fun kv hkv => hvals kv (by simp [hkv])) (g + 1) (acc ++ [(k, v)])
          rest (by simp) (by simp at hf ⊢; omega),
        List.append_assoc]
      rfl

theorem pj_elems_ws (g : Nat) (acc : List Json) (s : List Char) :
    pj (g + 1 + 1) (.jelems acc) (' ' :: s) =
      pj (g + 1 + 1) (.jelems acc) s := by
  rw [pj.eq_4, pj.eq_4, pj_val_ws]

theorem pj_elems_loop (n : Nat) :
    ∀ xs : List Json,
      (∀ x ∈ xs, ∀ g : Nat, ∀ rest2 : List Char, n ≤ g →
        numBoundary rest2 →
        pj (g + 1) .jval (printJson x ++ rest2) = some (x, rest2)) →
      ∀ (f : Nat) (acc : List Json) (rest : List Char),
        xs ≠ [] → n + xs.length + 1 ≤ f →
        pj f (.jelems acc) (printElems xs ++ ']' :: rest) =
          some (.arr (acc ++ xs), rest) := by
  intro xs
  induction xs with
  | nil =>
    intro hvals f acc rest hne hf
    exact absurd rfl hne
  | cons x tl ih =>
    intro hvals f acc rest hne hf
    simp only [List.length_cons] at hf
    obtain ⟨f', rfl⟩ : ∃ f', f = f' + 1 := ⟨f - 1, by omega⟩
    obtain ⟨g, rfl⟩ : ∃ g, f' = g + 1 := ⟨f' - 1, by omega⟩
    have hv := hvals x (by simp)
    rcases tl with - | ⟨y, ys⟩
    · have hin : printElems [x] ++ ']' :: rest = printJson x ++ ']' :: rest := by
        rfl
      rw [hin, pj.eq_4,
        hv g (']' :: rest) (by omega) (numBoundary_cons ']' rest (by decide))]
      show pjElemKont (fun acc2 => pj (g + 1) (.jelems acc2)) acc
        (x, ']' :: rest) = _
      rw [pjElemKont.eq_1, skipWs_nws ']' _ (by decide)]
      show (if (']' : Char) = ',' then _ else _) = _
      rw [if_neg (by decide)]
      show (if (']' : Char) = ']' then _ else _) = _
      rw [if_pos rfl]
    · have hin : printElems (x :: y :: ys) ++ ']' :: rest =
          printJson x ++ ',' :: ' ' :: (printElems (y :: ys) ++ ']' :: rest) := by
        show (printJson x ++ ',' :: ' ' :: printElems (y :: ys)) ++
          ']' :: rest = _
        simp [List.append_assoc]
      rw [hin, pj.eq_4,
        hv g (',' :: ' ' :: (printElems (y :: ys) ++ ']' :: rest)) (by omega)
          (numBoundary_cons ',' _ (by decide))]
      show pjElemKont (fun acc2 => pj (g + 1) (.jelems acc2)) acc
        (x, ',' :: ' ' :: (printElems (y :: ys) ++ ']' :: rest)) = _
      rw [pjElemKont.eq_1, skipWs_nws ',' _ (by decide)]
      show (if (',' : Char) = ',' then _ else _) = _
      rw [if_pos rfl]
      show pj (g + 1) (.jelems (acc ++ [x]))
        (' ' :: (printElems (y :: ys) ++ ']' :: rest)) = _
      obtain ⟨g2, rfl⟩ : ∃ g2, g = g2 + 1 :=
        ⟨g - 1, by simp only [List.length_cons] at hf; omega⟩
      rw [pj_elems_ws g2,
        ih (fun z hz => hvals z (by simp [hz])) (g2 + 1 + 1) (acc ++ [x]) rest
          (by simp) (by simp at hf ⊢; omega),
        List.append_assoc]
      rfl

theorem pj_val_obj (n : Nat) (kvs : List (List Char × Json)) (hkvs : kvs ≠ [])
    (hvals : ∀ kv ∈ kvs, ∀ g : Nat, ∀ rest2 : List Char, n ≤ g →
      numBoundary rest2 →
      pj (g + 1) .jval (printJson kv.2 ++ rest2) = some (kv.2, rest2)) :
    ∀ (f : Nat) (rest2 : List Char), n + kvs.length + 1 ≤ f →
      pj (f + 1) .jval (printJson (.obj kvs) ++ rest2) =
        some (.obj kvs, rest2) := by
  intro f rest2 hf
  have hin : printJson (.obj kvs) ++ rest2 =
      '{' :: (printMembs kvs ++ '}' :: rest2) := by
    show ('{' :: (printMembs kvs ++ ['}'])) ++ rest2 = _
    simp [List.append_assoc]
  rw [hin, pj.eq_2, skipWs_nws '{' _ (by decide)]
  show (if ('{' : Char) = '{' then _ else _) = _
  rw [if_pos rfl]
  obtain ⟨k, v, tl, rfl⟩ : ∃ k v tl, kvs = (k, v) :: tl := by
    rcases kvs with - | ⟨⟨k, v⟩, tl⟩
    · exact absurd rfl hkvs
    · exact ⟨k, v, tl, rfl⟩
  obtain ⟨T, hT⟩ : ∃ T, printMembs ((k, v) :: tl) ++ '}' :: rest2 = '"' :: T := by
    rcases tl with - | ⟨m, ms⟩
    · exact ⟨_, by
        show ('"' :: (escString k ++ '"' :: ':' :: ' ' :: printJson v)) ++
          '}' :: rest2 = _
        rw [List.cons_append]⟩
    · exact ⟨_, by
        show ('"' :: (escString k ++ '"' :: ':' :: ' ' :: printJson v ++
          ',' :: ' ' :: printMembs (m :: ms))) ++ '}' :: rest2 = _
        rw [List.cons_append]⟩
  rw [hT, skipWs_nws '"' _ (by decide)]
  show (if ('"' : Char) = '}' then _ else _) = _
  rw [if_neg (by decide), ← hT,
    pj_membs_loop n ((k, v) :: tl) hvals f [] rest2 (by simp) (by omega),
    List.nil_append]

theorem pj_val_arr_nil (f : Nat) (rest2 : List Char) :
    pj (f + 1) .jval (printJson (.arr []) ++ rest2) = some (.arr [], rest2) := by
  have hin : printJson (.arr []) ++ rest2 = '[' :: (']' :: rest2) := rfl
  rw [hin, pj.eq_2, skipWs_nws '[' _ (by decide)]
  show (if ('[' : Char) = '{' then _ else _) = _
  rw [if_neg (by decide)]
  show (if ('[' : Char) = '[' then _ else _) = _
  rw [if_pos rfl, skipWs_nws ']' _ (by decide)]
  show (if (']' : Char) = ']' then _ else _) = _
  rw [if_pos rfl]

theorem pj_val_arr_obj (n : Nat) (xs : List Json) (hxs : xs ≠ [])
    (hobj : ∀ x ∈ xs, ∃ kvs2, x = Json.obj kvs2)
    (hvals : ∀ x ∈ xs, ∀ g : Nat, ∀ rest2 : List Char, n ≤ g →
      numBoundary rest2 →
      pj (g + 1) .jval (printJson x ++ rest2) = some (x, rest2)) :
    ∀ (f : Nat) (rest2 : List Char), n + xs.length + 1 ≤ f →
      pj (f + 1) .jval (printJson (.arr xs) ++ rest2) =
        some (.arr xs, rest2) := by
  intro f rest2 hf
  have hin : printJson (.arr xs) ++ rest2 =
      '[' :: (printElems xs ++ ']' :: rest2) := by
    show ('[' :: (printElems xs ++ [']'])) ++ rest2 = _
    simp [List.append_assoc]
  rw [hin, pj.eq_2, skipWs_nws '[' _ (by decide)]
  show (if ('[' : Char) = '{' then _ else _) = _
  rw [if_neg (by decide)]
  show (if ('[' : Char) = '[' then _ else _) = _
  rw [if_pos rfl]
  obtain ⟨x, tl, rfl⟩ : ∃ x tl, xs = x :: tl := by
    rcases xs with - | ⟨x, tl⟩
    · exact absurd rfl hxs
    · exact ⟨x, tl, rfl⟩
  obtain ⟨kvs2, hx⟩ := hobj x (by simp)
  obtain ⟨T, hT⟩ : ∃ T, printElems (x :: tl) ++ ']' :: rest2 = '{' :: T := by
    rcases tl with - | ⟨y, ys⟩
    · refine ⟨(printMembs kvs2 ++ ['}']) ++ ']' :: rest2, ?_⟩
      show printJson x ++ ']' :: rest2 = _
      rw [hx]
      show ('{' :: (printMembs kvs2 ++ ['}'])) ++ ']' :: rest2 = _
      rw [List.cons_append]
    · refine ⟨((printMembs kvs2 ++ ['}']) ++
        ',' :: ' ' :: printElems (y :: ys)) ++ ']' :: rest2, ?_⟩
      show (printJson x ++ ',' :: ' ' :: printElems (y :: ys)) ++
        ']' :: rest2 = _
      rw [hx]
      show (('{' :: (printMembs kvs2 ++ ['}'])) ++
        ',' :: ' ' :: printElems (y :: ys)) ++ ']' :: rest2 = _
      rw [List.cons_append, List.cons_append]
  rw [hT, skipWs_nws '{' _ (by decide)]
  show (if ('{' : Char) = ']' then _ else _) = _
  rw [if_neg (by decide), ← hT,
    pj_elems_loop n (x :: tl) hvals f [] rest2 (by simp) (by omega),
    List.nil_append]

theorem pj_val_intJson (g : Nat) (i : Int) (rest2 : List Char)
    (hb : numBoundary rest2) :
    pj (g + 1) .jval (printJson (.int i) ++ rest2) = some (.int i, rest2) :=
  pj_val_intChars g i rest2 hb

theorem pj_val_decJson (g : Nat) (d : DecLit) (rest2 : List Char)
    (hfrac : d.frac ≠ []) (hexp : d.exp = none) (hb : numBoundary rest2) :
    pj (g + 1) .jval (printJson (.dec d) ++ rest2) = some (.dec d, rest2) :=
  pj_val_decChars g d rest2 hfrac hexp hb

theorem pj_val_strJson (g : Nat) (s rest2 : List Char) :
    pj (g + 1) .jval (printJson (.str s) ++ rest2) = some (.str s, rest2) := by
  have hin : printJson (.str s) ++ rest2 = '"' :: (escString s ++ '"' :: rest2) := by
    show ('"' :: (escString s ++ ['"'])) ++ rest2 = _
    simp [List.append_assoc]
  rw [hin, pj_val_str]

theorem pj_val_nullJson (g : Nat) (rest2 : List Char) :
    pj (g + 1) .jval (printJson .null ++ rest2) = some (.null, rest2) :=
  pj_val_null g rest2

theorem pj_val_bstate (b : BState) :
    ∀ g : Nat, ∀ rest2 : List Char, 4 ≤ g → numBoundary rest2 →
      pj (g + 1) .jval (printJson (bstateJson b) ++ rest2) =
        some (bstateJson b, rest2) := by
  intro g rest2 hg hb2
  refine pj_val_obj 0 _ (by simp [bstateJson]) ?_ g rest2 (by simp [bstateJson]; omega)
  intro kv hkv g2 rest3 hg2 hb3
  simp only [bstateJson, List.mem_cons, List.not_mem_nil, or_false] at hkv
  rcases hkv with hkv | hkv | hkv
  all_goals rw [hkv]
  · exact pj_val_intJson g2 b.pos rest3 hb3
  · exact pj_val_intJson g2 b.userState rest3 hb3
  · rcases hp : b.p1001 with - | l
    · exact pj_val_nullJson g2 rest3
    · exact pj_val_strJson g2 l.chars rest3

theorem pj_val_blockstates (bs : List BState) :
    ∀ g : Nat, ∀ rest2 : List Char, bs.length + 5 ≤ g → numBoundary rest2 →
      pj (g + 1) .jval (printJson (.arr (bs.map bstateJson)) ++ rest2) =
        some (.arr (bs.map bstateJson), rest2) := by
  intro g rest2 hg hb2
  rcases bs with - | ⟨b, tl⟩
  · rw [List.map_nil]
    exact pj_val_arr_nil g rest2
  · refine pj_val_arr_obj 4 ((b :: tl).map bstateJson) (by simp) ?_ ?_ g rest2 ?_
    · intro x hx
      rw [List.mem_map] at hx
      obtain ⟨b2, -, hx2⟩ := hx
      rw [← hx2]
      exact ⟨_, rfl⟩
    · intro x hx g3 rest3 hg3 hb3
      rw [List.mem_map] at hx
      obtain ⟨b2, -, hx2⟩ := hx
      rw [← hx2]
      exact pj_val_bstate b2 g3 rest3 hg3 hb3
    · simp only [List.length_map, List.length_cons] at hg ⊢
      omega

theorem pj_val_header (S : Settings) (bs : List BState)
    (hfrac : S.scale_ratio.frac ≠ []) (hexp : S.scale_ratio.exp = none) :
    ∀ g : Nat, ∀ rest2 : List Char, bs.length + 10 ≤ g → numBoundary rest2 →
      pj (g + 1) .jval (printJson (settingsJson S bs) ++ rest2) =
        some (settingsJson S bs, rest2) := by
  intro g rest2 hg hb2
  refine pj_val_obj (bs.length + 5) _ (by simp [settingsJson]) ?_ g rest2 ?_
  · intro kv hkv g2 rest3 hg2 hb3
    simp only [settingsJson, List.mem_cons, List.not_mem_nil, or_false] at hkv
    rcases hkv with hkv | hkv | hkv | hkv
    all_goals rw [hkv]
    · exact pj_val_intJson g2 S.scale_base rest3 hb3
    · exact pj_val_decJson g2 S.scale_ratio rest3 hfrac hexp hb3
    · exact pj_val_strJson g2 S.accent_color rest3
    · exact pj_val_blockstates bs g2 rest3 hg2 hb3
  · simp only [settingsJson, List.length_cons, List.length_nil]
    omega

theorem printJson_length_pos (v : Json) : 1 ≤ (printJson v).length := by
  rcases v with - | b | i | d | - | b | s | xs | kvs
  · decide
  · cases b <;> decide
  · show 1 ≤ (intChars i).length
    unfold intChars
    split
    · simp
    · exact List.length_pos.mpr (natChars_ne_nil _)
  · show 1 ≤ (decChars d).length
    unfold decChars
    rw [List.length_append, List.length_append, List.length_append]
    have := List.length_pos.mpr (natChars_ne_nil d.ip)
    omega
  · decide
  · cases b <;> decide
  · simp [printJson]
  · simp [printJson]
  · simp [printJson]

theorem printElems_length_ge (xs : List Json) :
    xs.length ≤ (printElems xs).length + 1 := by
  induction xs with
  | nil => simp
  | cons x tl ih =>
    rcases tl with - | ⟨y, ys⟩
    · have := printJson_length_pos x
      show 1 ≤ (printJson x).length + 1
      omega
    · show (y :: ys).length + 1 ≤
        (printJson x ++ ',' :: ' ' :: printElems (y :: ys)).length + 1
      rw [List.length_append]
      have h1 := printJson_length_pos x
      have h2 := ih
      simp only [List.length_cons] at h2 ⊢
      omega

theorem printMembs_length_ge (kvs : List (List Char × Json)) :
    ((kvs.map
        (fun kv => (escString kv.1).length + (printJson kv.2).length + 4))).sum ≤
      (printMembs kvs).length := by
  induction kvs with
  | nil => simp
  | cons kv tl ih =>
    rcases kv with ⟨k, v⟩
    rcases tl with - | ⟨m, ms⟩
    · show (escString k).length + (printJson v).length + 4 + 0 ≤
        ('"' :: (escString k ++ '"' :: ':' :: ' ' :: printJson v)).length
      simp [List.length_append]
      omega
    · show (escString k).length + (printJson v).length + 4 +
        ((((m :: ms).map
          (fun kv => (escString kv.1).length + (printJson kv.2).length + 4))).sum) ≤
        ('"' :: (escString k ++ '"' :: ':' :: ' ' :: printJson v ++
          ',' :: ' ' :: printMembs (m :: ms))).length
      have := ih
      simp only [List.length_cons, List.length_append] at this ⊢
      omega

theorem header_length_ge (S : Settings) (bs : List BState) :
    bs.length + 10 ≤ (printJson (settingsJson S bs)).length := by
  show bs.length + 10 ≤
    ('{' :: (printMembs [(keyScaleBase, .int S.scale_base),
      (keyScaleRatio, .dec S.scale_ratio),
      (keyAccentColor, .str S.accent_color),
      (keyBlockStates, .arr (bs.map bstateJson))] ++ ['}'])).length
  have hm := printMembs_length_ge [(keyScaleBase, .int S.scale_base),
    (keyScaleRatio, .dec S.scale_ratio),
    (keyAccentColor, .str S.accent_color),
    (keyBlockStates, .arr (bs.map bstateJson))]
  have h1 := printJson_length_pos (.int S.scale_base)
  have h2 := printJson_length_pos (.dec S.scale_ratio)
  have h3 := printJson_length_pos (.str S.accent_color)
  have harr : bs.length ≤ (printJson (.arr (bs.map bstateJson))).length + 1 := by
    show bs.length ≤ ('[' :: (printElems (bs.map bstateJson) ++ [']'])).length + 1
    have := printElems_length_ge (bs.map bstateJson)
    simp only [List.length_map] at this
    simp [List.length_append]
    omega
  simp only [List.map_cons, List.map_nil, List.sum_cons, List.sum_nil] at hm
  simp only [List.length_cons, List.length_append] at hm ⊢
  have hk1 : (escString keyScaleBase).length = 10 := by decide
  have hk2 : (escString keyScaleRatio).length = 11 := by decide
  have hk3 : (escString keyAccentColor).length = 12 := by decide
  have hk4 : (escString keyBlockStates).length = 12 := by decide
  rw [hk1, hk2, hk3, hk4] at hm
  omega

theorem jsonLoads_header (S : Settings) (bs : List BState)
    (hfrac : S.scale_ratio.frac ≠ []) (hexp : S.scale_ratio.exp = none) :
    jsonLoads (printJson (settingsJson S bs)) = some (settingsJson S bs) := by
  have hlen := header_length_ge S bs
  have hmain := pj_val_header S bs hfrac hexp
    (printJson (settingsJson S bs)).length [] (by omega) numBoundary_nil
  rw [List.append_nil] at hmain
  unfold jsonLoads
  rw [hmain]
  rfl

theorem findBlockIdxGo_skip (done : Doc) :
    ∀ (rest : Doc) (q i : Nat),
      findBlockIdxGo (done ++ rest) (docPos done + q) i =
        findBlockIdxGo rest q (i + done.length) := by
  induction done with
  | nil =>
    intro rest q i
    simp [docPos]
  | cons a t ih =>
    intro rest q i
    show findBlockIdxGo (a :: (t ++ rest)) (blockTextLen a + 1 + docPos t + q) i = _
    rw [findBlockIdxGo.eq_2, if_neg (by omega)]
    have harg : blockTextLen a + 1 + docPos t + q - blockTextLen a - 1 =
        docPos t + q := by omega
    rw [harg, ih rest q (i + 1),
      show i + 1 + t.length = i + (a :: t).length by
        simp only [List.length_cons]
        omega]

theorem findBlockIdx_at (done : Doc) (x : Block) (rest : Doc) :
    findBlockIdx (done ++ x :: rest) ((docPos done : Nat) : Int) =
      some done.length := by
  unfold findBlockIdx
  rw [if_neg (by simp), Int.toNat_natCast,
    show docPos done = docPos done + 0 by omega,
    findBlockIdxGo_skip done (x :: rest) 0 0,
    findBlockIdxGo.eq_2, if_pos (by omega)]
  simp

theorem getElem_append_len {α : Type} (l₁ : List α) (x : α) (l₂ : List α) :
    (l₁ ++ x :: l₂)[l₁.length]? = some x := by
  rw [List.getElem?_append_right (le_refl _)]
  simp

theorem set_append_len {α : Type} (l₁ : List α) (x y : α) (l₂ : List α) :
    (l₁ ++ x :: l₂).set l₁.length y = l₁ ++ y :: l₂ := by
  induction l₁ with
  | nil => rfl
  | cons a t ih =>
    show a :: ((t ++ x :: l₂).set t.length y) = a :: (t ++ y :: l₂)
    rw [ih]

theorem lvlOfChars_chars (l : Lvl) : lvlOfChars l.chars = some l := by
  cases l <;> rfl

theorem blockTextLen_strip (b : Block) :
    blockTextLen (stripBlockState b) = blockTextLen b := rfl

theorem applyBState_restore (done : Doc) (b : Block) (rest : Doc) :
    applyBState (done ++ stripBlockState b :: rest)
      (bstateJson ⟨((docPos done : Nat) : Int), b.userState, b.p1001⟩) =
      done ++ b :: rest := by
  rcases b with ⟨p1001, align, listm, lm, rm, us, runs⟩
  unfold applyBState
  rw [show jGet (bstateJson ⟨((docPos done : Nat) : Int), us, p1001⟩) keyPos =
      some (.int ((docPos done : Nat) : Int)) from rfl]
  show applyBStateAt
    (done ++ stripBlockState ⟨p1001, align, listm, lm, rm, us, runs⟩ :: rest)
    (bstateJson ⟨((docPos done : Nat) : Int), us, p1001⟩)
    ((docPos done : Nat) : Int) = _
  unfold applyBStateAt
  rw [findBlockIdx_at done _ rest]
  show applyBStateIdx
    (done ++ stripBlockState ⟨p1001, align, listm, lm, rm, us, runs⟩ :: rest)
    (bstateJson ⟨((docPos done : Nat) : Int), us, p1001⟩)
    done.length = _
  unfold applyBStateIdx
  rw [getElem_append_len]
  rcases p1001 with - | l
  · show (done ++ stripBlockState ⟨none, align, listm, lm, rm, us, runs⟩ :: rest).set
      done.length
      { stripBlockState ⟨none, align, listm, lm, rm, us, runs⟩ with
        userState := us, p1001 := none } = _
    rw [set_append_len]
    rfl
  · show (done ++ stripBlockState ⟨some l, align, listm, lm, rm, us, runs⟩ :: rest).set
      done.length
      { stripBlockState ⟨some l, align, listm, lm, rm, us, runs⟩ with
        userState := us, p1001 := lvlOfChars l.chars } = _
    rw [lvlOfChars_chars, set_append_len]
    rfl

theorem applyBStates_rejoin (todo : Doc) :
    ∀ done : Doc,
      applyBStates (done ++ todo.map stripBlockState)
        ((blocksData todo ((docPos done : Nat) : Int)).map bstateJson) =
      done ++ todo := by
  induction todo with
  | nil =>
    intro done
    simp [applyBStates, blocksData]
  | cons b t ih =>
    intro done
    rw [List.map_cons, blocksData.eq_2, List.map_cons]
    show applyBStates
      (applyBState (done ++ stripBlockState b :: t.map stripBlockState)
        (bstateJson ⟨((docPos done : Nat) : Int), b.userState, b.p1001⟩))
      ((blocksData t (((docPos done : Nat) : Int) + blockTextLen b + 1)).map
        bstateJson) = _
    rw [applyBState_restore done b (t.map stripBlockState),
      show (((docPos done : Nat) : Int) + blockTextLen b + 1) =
        ((docPos (done ++ [b]) : Nat) : Int) by
        have : docPos (done ++ [b]) = docPos done + blockTextLen b + 1 := by
          induction done with
          | nil => show blockTextLen b + 1 + 0 = 0 + blockTextLen b + 1; omega
          | cons a t2 ih2 =>
            show blockTextLen a + 1 + docPos (t2 ++ [b]) = _
            rw [ih2]
            show _ = blockTextLen a + 1 + docPos t2 + blockTextLen b + 1
            omega
        rw [this]
        push_cast
        ring,
      show done ++ b :: t.map stripBlockState =
        (done ++ [b]) ++ t.map stripBlockState by
        rw [List.append_assoc]
        rfl,
      ih (done ++ [b]), List.append_assoc]
    rfl

theorem scaleRun_id (sz : Int) (r : Run) (h : r.fmt.size = sz)
    (hsty : r.fmt.bold = false ∧ r.fmt.italic = false ∧
      r.fmt.underline = false ∧ r.fmt.strike = false) :
    scaleRun sz r = r := by
  obtain ⟨⟨b1, i1, u1, s1, bg1, fg1, a1, h1, z1⟩, t1⟩ := r
  obtain ⟨hb, hi, hu, hs⟩ := hsty
  simp only [scaleRun, Run.mk.injEq, CharFmt.mk.injEq, and_true, true_and]
  exact ⟨hb.symm, hi.symm, hu.symm, hs.symm, h.symm⟩

theorem scaleBlock_id (S : Settings) (b : Block) (h : sizeConsistent S b)
    (hsty : ∀ r ∈ b.runs, r.fmt.bold = false ∧ r.fmt.italic = false ∧
      r.fmt.underline = false ∧ r.fmt.strike = false) :
    scaleBlock S b = b := by
  unfold scaleBlock
  have hruns : b.runs.map
      (scaleRun (size_for (S.scale_base : ℚ) (decVal S.scale_ratio)
        (lvlNumOpt b.p1001))) = b.runs := by
    have hr : ∀ r ∈ b.runs,
        scaleRun (size_for (S.scale_base : ℚ) (decVal S.scale_ratio)
          (lvlNumOpt b.p1001)) r = r :=
      fun r hrm => scaleRun_id _ r (h r hrm) (hsty r hrm)
    rw [List.map_congr_left hr]
    simp
  show { b with runs := b.runs.map _ } = b
  rw [hruns]

theorem apply_typography_scale_id (S : Settings) (d : Doc) (h : DocWF S d)
    (hsty : plainFontStyles d) :
    apply_typography_scale S d = d := by
  unfold apply_typography_scale
  have hb : ∀ b ∈ d, scaleBlock S b = b :=
    fun b hbm => scaleBlock_id S b (h b hbm) (hsty b hbm)
  rw [List.map_congr_left hb]
  simp

theorem blockEqNoMargins_refl (b : Block) : blockEqNoMargins b b :=
  ⟨rfl, rfl, rfl, rfl, rfl⟩

theorem auto_indent_go_noMargins (d : Doc) :
    ∀ prev, docEqNoMargins (auto_indent_go prev d) d := by
  induction d with
  | nil =>
    intro prev
    exact List.Forall₂.nil
  | cons b t ih =>
    intro prev
    rcases b with ⟨p1001, align, listm, lm, rm, us, runs⟩
    rcases p1001 with - | l
    · exact List.Forall₂.cons (blockEqNoMargins_refl _) (ih none)
    · rcases l with - | - | - | -
      · exact List.Forall₂.cons (blockEqNoMargins_refl _) (ih (some 1))
      · exact List.Forall₂.cons (blockEqNoMargins_refl _) (ih (some 2))
      · exact List.Forall₂.cons (blockEqNoMargins_refl _) (ih (some 3))
      · exact List.Forall₂.cons ⟨rfl, rfl, rfl, rfl, rfl⟩ (ih prev)

theorem auto_indent_noMargins (d : Doc) :
    docEqNoMargins (auto_indent_bodies d) d :=
  auto_indent_go_noMargins d none

theorem decodeSplit_save (S : Settings) (d : Doc)
    (hacc : hasC3 S.accent_color = false) :
    decodeSplit (save S d) =
      (jsonLoads (printJson (settingsJson S (blocksData d 0))), qt_toHtml d) := by
  unfold decodeSplit save
  rw [splitC3_append _ _ (settingsJson_hasC3 S _ hacc) (by
    intro c hc
    rw [settingsJson_getLast] at hc
    simp at hc
    rw [← hc]
    decide)]

theorem updateSettings_settingsJson (old S : Settings) (bs : List BState) :
    updateSettings old (some (settingsJson S bs)) = S := rfl

theorem decode_settings_save (old S : Settings) (d : Doc)
    (hacc : hasC3 S.accent_color = false)
    (hfrac : S.scale_ratio.frac ≠ []) (hexp : S.scale_ratio.exp = none) :
    decode_settings old (save S d) = S := by
  unfold decode_settings
  rw [decodeSplit_save S d hacc]
  show updateSettings old
    (jsonLoads (printJson (settingsJson S (blocksData d 0)))) = S
  rw [jsonLoads_header S (blocksData d 0) hfrac hexp]
  exact updateSettings_settingsJson old S (blocksData d 0)

theorem decode_doc_save_scale (old S : Settings) (d : Doc)
    (hacc : hasC3 S.accent_color = false)
    (hfrac : S.scale_ratio.frac ≠ []) (hexp : S.scale_ratio.exp = none) :
    decode_doc old (save S d) =
      auto_indent_bodies (apply_typography_scale S d) := by
  unfold decode_doc
  rw [decodeSplit_save S d hacc]
  show auto_indent_bodies (apply_typography_scale
    (updateSettings old (jsonLoads (printJson (settingsJson S (blocksData d 0)))))
    (applyBStates (qt_setHtml (qt_toHtml d))
      (blockStatesOf
        (jsonLoads (printJson (settingsJson S (blocksData d 0))))))) = _
  rw [jsonLoads_header S (blocksData d 0) hfrac hexp, qt_setHtml_toHtml]
  show auto_indent_bodies (apply_typography_scale S
    (applyBStates (d.map stripBlockState)
      ((blocksData d 0).map bstateJson))) = _
  rw [show applyBStates (d.map stripBlockState)
      ((blocksData d 0).map bstateJson) = d from applyBStates_rejoin d []]

theorem decode_doc_save (old S : Settings) (d : Doc)
    (hacc : hasC3 S.accent_color = false)
    (hfrac : S.scale_ratio.frac ≠ []) (hexp : S.scale_ratio.exp = none)
    (hwf : DocWF S d) (hsty : plainFontStyles d) :
    decode_doc old (save S d) = auto_indent_bodies d := by
  rw [decode_doc_save_scale old S d hacc hfrac hexp,
    apply_typography_scale_id S d hwf hsty]

/-- C1 counterexample: the unconditional round-trip claim fails twice over.
First, when the accent colour itself contains the separator `":::"`
(`json.dumps` does not escape colons) the decoder's split truncates the
JSON header and the parse failure makes the settings fall back to their
previous values.  Second, even with the accent colour (and the float-literal
shape) restricted, the document half still fails whenever a run carries
bold, italic, underline or strikethrough: the on-load scale pass merges a
fresh `QFont` with `FontPropertiesAll`, wiping those attributes — shown
here on a single Body block holding a bold run at the correct size. -/
theorem c1_counterexample :
    (¬ (∀ (old S : Settings) (d : Doc), DocWF S d →
        decode_settings old (save S d) = S ∧
        docEqNoMargins (decode_doc old (save S d)) d)) ∧
    (¬ (∀ (old S : Settings) (d : Doc), DocWF S d →
        hasC3 S.accent_color = false →
        S.scale_ratio.frac ≠ [] → S.scale_ratio.exp = none →
        docEqNoMargins (decode_doc old (save S d)) d)) := by
  constructor
  · intro h
    have hwf : DocWF exSettingsColon [] := fun b hb => absurd hb (List.not_mem_nil b)
    obtain ⟨h1, -⟩ := h exSettings exSettingsColon [] hwf
    have h2 : decode_settings exSettings (save exSettingsColon []) = exSettings := by
      decide
    rw [h2] at h1
    exact absurd h1 (by decide)
  · intro h
    have hsz : size_for (exSettings.scale_base : ℚ)
        (decVal exSettings.scale_ratio) (lvlNumOpt boldBlock.p1001) = 12 := by
      unfold size_for
      rw [show (exSettings.scale_base : ℚ) *
          decVal exSettings.scale_ratio ^ (4 - lvlNumOpt boldBlock.p1001) =
          (12 : ℚ) from by
        show ((12 : Int) : ℚ) * decVal exSettings.scale_ratio ^ 0 = 12
        norm_num]
      exact pyround_eq_of_lt_half (by norm_num) (by norm_num)
    have hwf : DocWF exSettings [boldBlock] := by
      intro b hb r hr
      simp only [List.mem_singleton] at hb
      subst hb
      simp only [boldBlock, List.mem_singleton] at hr
      subst hr
      exact hsz.symm
    have h2 := h exSettings exSettings [boldBlock] hwf (by decide) (by decide)
      (by decide)
    rw [decode_doc_save_scale exSettings exSettings [boldBlock] (by decide)
      (by decide) (by decide)] at h2
    rcases h2 with - | ⟨hhead, -⟩
    obtain ⟨-, -, -, -, hruns⟩ := hhead
    have h4 : scaleRun (size_for (exSettings.scale_base : ℚ)
        (decVal exSettings.scale_ratio) (lvlNumOpt boldBlock.p1001)) boldRun ::
        ([] : List Run) = [boldRun] := hruns
    injection h4 with h6 h6t
    have h7 := congrArg (fun r : Run => r.fmt.bold) h6
    have h8 : (false : Bool) = true := h7
    exact Bool.noConfusion h8

/-- C1 (amended): for every settings value whose accent colour does not
contain `":::"` and whose scale-ratio literal is a plain decimal (a digit
after the point, no exponent — every Python float `repr` this program
stores has this shape), and every document expressible in the data model
(run sizes derived from the typography scale) none of whose runs carries
bold, italic, underline or strikethrough (the on-load scale pass merges a
fresh `QFont` with `FontPropertiesAll`, resetting those four attributes
on every run), loading the saved text restores the settings exactly and
the block/run tree up to the re-derived margins. -/
theorem c1_roundtrip (old S : Settings) (d : Doc)
    (hacc : hasC3 S.accent_color = false)
    (hfrac : S.scale_ratio.frac ≠ []) (hexp : S.scale_ratio.exp = none)
    (hwf : DocWF S d) (hsty : plainFontStyles d) :
    decode_settings old (save S d) = S ∧
    docEqNoMargins (decode_doc old (save S d)) d := by
  refine ⟨decode_settings_save old S d hacc hfrac hexp, ?_⟩
  rw [decode_doc_save old S d hacc hfrac hexp hwf hsty]
  exact auto_indent_noMargins d

/-- C1 witness: the round-trip at concrete settings and a one-block
document. -/
theorem c1_witness :
    hasC3 exSettings.accent_color = false ∧
    exSettings.scale_ratio.frac ≠ [] ∧
    exSettings.scale_ratio.exp = none ∧
    DocWF exSettings [plainBlock (some .h2)] ∧
    plainFontStyles [plainBlock (some .h2)] ∧
    (decode_settings exSettingsColon (save exSettings [plainBlock (some .h2)]) =
      exSettings ∧
     docEqNoMargins
       (decode_doc exSettingsColon (save exSettings [plainBlock (some .h2)]))
       [plainBlock (some .h2)]) := by
  have hwf : DocWF exSettings [plainBlock (some .h2)] := by
    intro b hb r hr
    simp at hb
    rw [hb] at hr
    simp [plainBlock] at hr
  have hsty : plainFontStyles [plainBlock (some .h2)] := by
    intro b hb r hr
    simp at hb
    rw [hb] at hr
    simp [plainBlock] at hr
  exact ⟨by decide, by decide, by decide, hwf, hsty,
    c1_roundtrip exSettingsColon exSettings [plainBlock (some .h2)]
      (by decide) (by decide) (by decide) hwf hsty⟩

/-- C4 (amended): when the separator is present but the header fails to
parse as JSON, the open still succeeds: the settings keep their previous
values and the document is built from the part of the input after the
first `":::"` (not from the entire input, which the claim asserted). -/
theorem c4_recovery (old : Settings) (raw hdr body : List Char)
    (hsplit : splitC3 raw = some (hdr, body)) (hfail : jsonLoads hdr = none) :
    decode_settings old raw = old ∧
    decode_doc old raw =
      auto_indent_bodies (apply_typography_scale old (qt_setHtml body)) := by
  constructor
  · unfold decode_settings decodeSplit
    rw [hsplit]
    show updateSettings old (jsonLoads hdr) = old
    rw [hfail]
    rfl
  · unfold decode_doc decodeSplit
    rw [hsplit]
    show auto_indent_bodies (apply_typography_scale
      (updateSettings old (jsonLoads hdr))
      (applyBStates (qt_setHtml body) (blockStatesOf (jsonLoads hdr)))) = _
    rw [hfail]
    rfl

/-- C4 witness: recovery on the concrete input `"x:::y"`. -/
theorem c4_witness :
    splitC3 ['x', ':', ':', ':', 'y'] = some (['x'], ['y']) ∧
    jsonLoads ['x'] = none ∧
    (decode_settings exSettings ['x', ':', ':', ':', 'y'] = exSettings ∧
     decode_doc exSettings ['x', ':', ':', ':', 'y'] =
       auto_indent_bodies (apply_typography_scale exSettings (qt_setHtml ['y']))) :=
  ⟨by decide, by rfl,
    c4_recovery exSettings ['x', ':', ':', ':', 'y'] ['x'] ['y']
      (by decide) (by rfl)⟩

/-- C4 counterexample: the claim says the whole input becomes the markup
body, but the code uses only the part after the first `":::"`
(`raw.split(":::", 1)[1]`, line 503): on `"x:::y"` the body is `"y"`. -/
theorem c4_counterexample :
    ¬ (∀ (raw hdr body : List Char),
        splitC3 raw = some (hdr, body) → jsonLoads hdr = none →
        (decodeSplit raw).2 = raw) := by
  intro h
  have := h ['x', ':', ':', ':', 'y'] ['x'] ['y'] (by decide) (by rfl)
  exact absurd this (by decide)


end Granite
